import Mathlib

/-!
# Verification of the swift-dwarf specification

The repository ships a platform-configuration header
(`Sources/CLibdwarf/include/config.h`); the DWARF reading pipeline it
configures (ByteCursor, LEB128 codec, AbbreviationTable,
CompilationUnitParser, LineNumberProgramInterpreter, ExpressionEvaluator)
is described by the specification but its code is not part of the visible
fragment.  The parser components below are therefore modelled from the
spec; the configuration macros are modelled from `config.h` itself.

Bytes are modelled as natural numbers below 256, sections as `List Nat`,
and machine integers as `Nat`/`Int` with explicit `% 2 ^ w` where overflow
matters.
-/

namespace Dwarf

/-- Error taxonomy of the decoder (spec section 7). -/
inductive DwarfError where
  | TruncatedData
  | Overflow
  | OutOfRange
  | MalformedAbbrev
  | UnknownAbbreviationCode
  | MalformedTree
  | MalformedLineProgram
  | UnsupportedForm
  | UnsupportedOperation
  | StackUnderflow
  deriving DecidableEq, Repr

/-! ## LEB128 codec (spec section 4.2)

Modelled from the spec: the LEB128 codec of the DWARF library is not in
the visible source fragment.  Unsigned decoding accumulates 7 bits per
byte, low-order first, continuing while the high bit of each byte is set;
it fails with `Overflow` if the accumulated value would exceed the 64-bit
target width and with `TruncatedData` if the continuation bit is set on
the last available byte.  Signed decoding is the identical accumulation
followed by sign extension based on the sign bit of the final byte. -/

/-- Modelled from the spec: unsigned LEB128 decoding loop over the
remaining bytes.  `shift` is the bit position of the next 7-bit group and
`acc` the value accumulated so far; returns the value and the unconsumed
rest. -/
def ulebCore : List Nat → Nat → Nat → Except DwarfError (Nat × List Nat)
  | [], _, _ => .error .TruncatedData
  | b :: rest, shift, acc =>
    let acc' := acc + (b % 128) * 2 ^ shift
    if 2 ^ 64 ≤ acc' then .error .Overflow
    else if b % 256 < 128 then .ok (acc', rest)
    else ulebCore rest (shift + 7) acc'

/-- Modelled from the spec: unsigned LEB128 decode of a byte list. -/
def ulebDecode (bs : List Nat) : Except DwarfError (Nat × List Nat) :=
  ulebCore bs 0 0

/-- Modelled from the spec: canonical unsigned LEB128 encoding, 7 bits
per byte, low-order first, continuation bit on every byte but the last. -/
def ulebEncode (n : Nat) : List Nat :=
  if h : n < 128 then [n]
  else (n % 128 + 128) :: ulebEncode (n / 128)
  decreasing_by exact Nat.div_lt_self (by omega) (by omega)

/-- Modelled from the spec: signed LEB128 decoding loop.  Identical
accumulation to the unsigned loop (guarded so that at most ten bytes, the
width of a 64-bit value, are consumed), then sign extension based on bit
6 of the final byte; fails with `Overflow` when the decoded value falls
outside the signed 64-bit range. -/
def slebCore : List Nat → Nat → Nat → Except DwarfError (Int × List Nat)
  | [], _, _ => .error .TruncatedData
  | b :: rest, shift, acc =>
    if 64 ≤ shift then .error .Overflow
    else
      let acc' := acc + (b % 128) * 2 ^ shift
      if b % 256 < 128 then
        let v : Int :=
          if b % 128 < 64 then (acc' : Int) else (acc' : Int) - 2 ^ (shift + 7)
        if v < -(2 ^ 63) ∨ (2 ^ 63 : Int) ≤ v then .error .Overflow
        else .ok (v, rest)
      else slebCore rest (shift + 7) acc'

/-- Modelled from the spec: signed LEB128 decode of a byte list. -/
def slebDecode (bs : List Nat) : Except DwarfError (Int × List Nat) :=
  slebCore bs 0 0

/-- Modelled from the spec: canonical signed LEB128 encoding.  Emits 7
bits per byte, low-order first; a value in `[-64, 64)` fits in a single
byte whose bit 6 carries the sign. -/
def slebEncode (n : Int) : List Nat :=
  if h : -64 ≤ n ∧ n < 64 then [(n % 128).toNat]
  else ((n % 128).toNat + 128) :: slebEncode (n / 128)
termination_by n.natAbs
decreasing_by
  simp only [not_and_or, not_le, not_lt] at h
  omega

instance {ε α : Type} [DecidableEq ε] [DecidableEq α] :
    DecidableEq (Except ε α)
  | .error a, .error b =>
    if h : a = b then .isTrue (by rw [h]) else .isFalse (by simp [h])
  | .error _, .ok _ => .isFalse (by simp)
  | .ok _, .error _ => .isFalse (by simp)
  | .ok a, .ok b =>
    if h : a = b then .isTrue (by rw [h]) else .isFalse (by simp [h])

/-- The value accumulated by the unsigned LEB128 loop over a byte list:
7 bits per byte, low-order first. -/
def accVal : List Nat → Nat
  | [] => 0
  | b :: rest => b % 128 + 128 * accVal rest

/-- The unsigned decoding loop started at `shift`/`acc` sees its
accumulated value exceed the 64-bit width at some byte it examines (all
earlier bytes having their continuation bit set). -/
def UOverflowFrom (bs : List Nat) (shift acc : Nat) : Prop :=
  ∃ k, k < bs.length ∧ (∀ j, j < k → 128 ≤ bs.getD j 0 % 256) ∧
    2 ^ 64 ≤ acc + accVal (bs.take (k + 1)) * 2 ^ shift

/-- The accumulated value would exceed the 64-bit width at some byte the
decoding loop examines. -/
def UOverflow (bs : List Nat) : Prop := UOverflowFrom bs 0 0

/-- Every available byte has its continuation (high) bit set. -/
def AllCont (bs : List Nat) : Prop := ∀ b ∈ bs, 128 ≤ b % 256

/-! ## ByteCursor (spec section 4.1)

Modelled from the spec: a bounds-checked, endianness-aware primitive
reader over a debug-section byte range.  Every read advances the position
past the bytes it consumed and fails with `TruncatedData` when
insufficient bytes remain; seeking to an absolute offset fails with
`OutOfRange` when the target lies outside the section. -/

/-- Byte order applied to multi-byte scalar reads. -/
inductive ByteOrder where
  | littleEndian
  | bigEndian
  deriving DecidableEq, Repr

/-- Value of a little-endian byte sequence, first byte least significant. -/
def leBytesVal : List Nat → Nat
  | [] => 0
  | b :: rest => b % 256 + 256 * leBytesVal rest

/-- Assemble a scalar from raw bytes under a byte order. -/
def scalarOfBytes (order : ByteOrder) (bs : List Nat) : Nat :=
  match order with
  | .littleEndian => leBytesVal bs
  | .bigEndian => leBytesVal bs.reverse

/-- Modelled from the spec: a ByteCursor wraps a section byte range and a
position. -/
structure ByteCursor where
  data : List Nat
  order : ByteOrder
  pos : Nat
  deriving DecidableEq, Repr

/-- Modelled from the spec: read `n` raw bytes (`fixed_bytes(n)`),
advancing the position, or fail with `TruncatedData`. -/
def ByteCursor.readBytes (c : ByteCursor) (n : Nat) :
    Except DwarfError (List Nat × ByteCursor) :=
  if c.pos + n ≤ c.data.length then
    .ok ((c.data.drop c.pos).take n, { c with pos := c.pos + n })
  else .error .TruncatedData

/-- Modelled from the spec: read an `n`-byte scalar in the cursor's byte
order; `u8`, `u16`, `u32`, `u64` are the instances `n = 1, 2, 4, 8`. -/
def ByteCursor.readScalar (c : ByteCursor) (n : Nat) :
    Except DwarfError (Nat × ByteCursor) :=
  match c.readBytes n with
  | .ok (bs, c') => .ok (scalarOfBytes c.order bs, c')
  | .error e => .error e

/-- Modelled from the spec: `u8`. -/
def ByteCursor.u8 (c : ByteCursor) : Except DwarfError (Nat × ByteCursor) :=
  c.readScalar 1

/-- Modelled from the spec: `u16`. -/
def ByteCursor.u16 (c : ByteCursor) : Except DwarfError (Nat × ByteCursor) :=
  c.readScalar 2

/-- Modelled from the spec: `u32`. -/
def ByteCursor.u32 (c : ByteCursor) : Except DwarfError (Nat × ByteCursor) :=
  c.readScalar 4

/-- Modelled from the spec: `u64`. -/
def ByteCursor.u64 (c : ByteCursor) : Except DwarfError (Nat × ByteCursor) :=
  c.readScalar 8

/-- Unsigned LEB128 read at a position inside a byte range; returns the
value and the new position. -/
def readUlebAt (data : List Nat) (pos : Nat) :
    Except DwarfError (Nat × Nat) :=
  match ulebDecode (data.drop pos) with
  | .ok (v, rest) => .ok (v, data.length - rest.length)
  | .error e => .error e

/-- Signed LEB128 read at a position inside a byte range. -/
def readSlebAt (data : List Nat) (pos : Nat) :
    Except DwarfError (Int × Nat) :=
  match slebDecode (data.drop pos) with
  | .ok (v, rest) => .ok (v, data.length - rest.length)
  | .error e => .error e

/-- Modelled from the spec: `leb128_unsigned` through the cursor. -/
def ByteCursor.lebU (c : ByteCursor) : Except DwarfError (Nat × ByteCursor) :=
  match readUlebAt c.data c.pos with
  | .ok (v, pos') => .ok (v, { c with pos := pos' })
  | .error e => .error e

/-- Modelled from the spec: `leb128_signed` through the cursor. -/
def ByteCursor.lebS (c : ByteCursor) : Except DwarfError (Int × ByteCursor) :=
  match readSlebAt c.data c.pos with
  | .ok (v, pos') => .ok (v, { c with pos := pos' })
  | .error e => .error e

/-- Bytes before the first null terminator, with the count of bytes
consumed including the terminator; `none` when no terminator remains. -/
def takeUntilNull : List Nat → Option (List Nat × Nat)
  | [] => none
  | b :: rest =>
    if b % 256 = 0 then some ([], 1)
    else
      match takeUntilNull rest with
      | some (s, k) => some (b :: s, k + 1)
      | none => none

/-- Modelled from the spec: `null_terminated_string`, consuming through
the terminator, failing with `TruncatedData` when no terminator remains. -/
def ByteCursor.nullTerminatedString (c : ByteCursor) :
    Except DwarfError (List Nat × ByteCursor) :=
  match takeUntilNull (c.data.drop c.pos) with
  | some (s, k) => .ok (s, { c with pos := c.pos + k })
  | none => .error .TruncatedData

/-- Modelled from the spec: seek to an absolute section offset, failing
with `OutOfRange` when the target lies outside the section. -/
def ByteCursor.seek (c : ByteCursor) (off : Nat) :
    Except DwarfError ByteCursor :=
  if off ≤ c.data.length then .ok { c with pos := off }
  else .error .OutOfRange

/-- A concrete five-byte section used to exercise the cursor contract. -/
def sampleCursor : ByteCursor := ⟨[1, 2, 3, 0, 5], .littleEndian, 0⟩

/-! ## ExpressionEvaluator (spec section 4.7)

Modelled from the spec: a stack machine over the expression's raw bytes;
opcodes push constants, combine stack entries, or designate a location
result; evaluation stops when the byte range is exhausted or a terminal
opcode is reached; an empty expression yields "no location". -/

/-- A location description resulting from expression evaluation. -/
inductive Location where
  | noLocation
  | address (a : Nat)
  | frameBaseRelative (off : Int)
  | stackValue (v : Nat)
  deriving DecidableEq, Repr

/-- Evaluation context threaded through the evaluator. -/
structure EvalContext where
  frameBase : Nat
  deriving DecidableEq, Repr

/-- Result once the byte range is exhausted: a pending location
designation wins; otherwise a non-empty stack denotes a memory address;
an empty expression yields "no location". -/
def finalResult (stack : List Nat) (pending : Option Location) : Location :=
  match pending with
  | some l => l
  | none =>
    match stack with
    | v :: _ => .address v
    | [] => .noLocation

/-- Modelled from the spec: fuelled evaluation loop.  Opcodes:
`DW_OP_lit0..31` (0x30-0x4f) push a constant, `DW_OP_plus` (0x22) adds
the top two entries modulo `2 ^ 64`, `DW_OP_fbreg` (0x91) reads an SLEB128
operand and designates a frame-base-relative location, `DW_OP_stack_value`
(0x9f) is terminal; unrecognized opcodes fail with
`UnsupportedOperation`, missing operand bytes with `TruncatedData`. -/
def evalSteps (ctx : EvalContext) :
    Nat → List Nat → List Nat → Option Location → Except DwarfError Location
  | 0, bs, stack, pending =>
    match bs with
    | [] => .ok (finalResult stack pending)
    | _ :: _ => .error .UnsupportedOperation
  | fuel + 1, bs, stack, pending =>
    match bs with
    | [] => .ok (finalResult stack pending)
    | op :: rest =>
      if 0x30 ≤ op ∧ op ≤ 0x4f then
        evalSteps ctx fuel rest ((op - 0x30) :: stack) pending
      else if op = 0x22 then
        match stack with
        | a :: b :: s => evalSteps ctx fuel rest ((a + b) % 2 ^ 64 :: s) pending
        | _ => .error .StackUnderflow
      else if op = 0x91 then
        match slebDecode rest with
        | .ok (off, rest') =>
          evalSteps ctx fuel rest' stack (some (.frameBaseRelative off))
        | .error _ => .error .TruncatedData
      else if op = 0x9f then
        match stack with
        | v :: _ => .ok (.stackValue v)
        | [] => .error .StackUnderflow
      else .error .UnsupportedOperation

/-- Modelled from the spec: evaluate an expression from an empty stack. -/
def evalExpr (ctx : EvalContext) (bs : List Nat) : Except DwarfError Location :=
  evalSteps ctx (bs.length + 1) bs [] none

/-! ## LineNumberProgramInterpreter (spec section 4.6)

Modelled from the spec: a state machine over opcodes with registers reset
to header defaults at the start of each sequence. -/

/-- Line-number program header fields used by the interpreter. -/
structure LineHeader where
  minimumInstructionLength : Nat
  lineBase : Int
  lineRange : Nat
  opcodeBase : Nat
  defaultIsStmt : Bool
  stdOpcodeLengths : List Nat
  deriving DecidableEq, Repr

/-- State-machine registers. -/
structure LineRegs where
  address : Nat
  file : Nat
  line : Int
  column : Nat
  isStmt : Bool
  basicBlock : Bool
  endSequence : Bool
  deriving DecidableEq, Repr

/-- Modelled from the spec: register defaults (`file = 1`, `line = 1`). -/
def initialRegs (h : LineHeader) : LineRegs :=
  { address := 0, file := 1, line := 1, column := 0,
    isStmt := h.defaultIsStmt, basicBlock := false, endSequence := false }

/-- Interpreter state: current registers and the rows emitted so far. -/
structure LineState where
  regs : LineRegs
  rows : List LineRegs
  deriving DecidableEq, Repr

/-- Skip `k` ULEB128 operands (forward compatibility for unknown standard
opcodes). -/
def skipUlebs : Nat → List Nat → Except DwarfError (List Nat)
  | 0, l => .ok l
  | k + 1, l =>
    match ulebDecode l with
    | .ok (_, rest) => skipUlebs k rest
    | .error _ => .error .MalformedLineProgram

/-- Modelled from the spec: fuelled line-number program interpreter.
Standard opcodes 1-6 (`copy`, `advance_pc`, `advance_line`, `set_file`,
`set_column`, `negate_stmt`), unknown standard opcodes skipped via the
header's operand-count table, extended opcodes (`end_sequence`,
`set_address`, unknown skipped by length), and special opcodes applying
the linear formula from `line_base`/`line_range`/
`minimum_instruction_length`. -/
def runLineFuel (h : LineHeader) :
    Nat → List Nat → LineState → Except DwarfError LineState
  | 0, _, _ => .error .MalformedLineProgram
  | fuel + 1, bs, st =>
    match bs with
    | [] => .ok st
    | op :: rest =>
      if op = 0 then
        match ulebDecode rest with
        | .error _ => .error .MalformedLineProgram
        | .ok (len, rest') =>
          if len = 0 then .error .MalformedLineProgram
          else if rest'.length < len then .error .MalformedLineProgram
          else
            match rest' with
            | [] => .error .MalformedLineProgram
            | sub :: rest'' =>
              if sub = 1 then
                runLineFuel h fuel (rest'.drop len)
                  ⟨initialRegs h,
                    st.rows ++ [{ st.regs with endSequence := true }]⟩
              else if sub = 2 then
                runLineFuel h fuel (rest'.drop len)
                  ⟨{ st.regs with address := leBytesVal (rest''.take (len - 1)) },
                    st.rows⟩
              else
                runLineFuel h fuel (rest'.drop len) st
      else if op < h.opcodeBase then
        if op = 1 then
          runLineFuel h fuel rest
            ⟨{ st.regs with basicBlock := false }, st.rows ++ [st.regs]⟩
        else if op = 2 then
          match ulebDecode rest with
          | .error _ => .error .MalformedLineProgram
          | .ok (adv, rest') =>
            runLineFuel h fuel rest'
              ⟨{ st.regs with
                  address := st.regs.address + adv * h.minimumInstructionLength },
                st.rows⟩
        else if op = 3 then
          match slebDecode rest with
          | .error _ => .error .MalformedLineProgram
          | .ok (adv, rest') =>
            runLineFuel h fuel rest'
              ⟨{ st.regs with line := st.regs.line + adv }, st.rows⟩
        else if op = 4 then
          match ulebDecode rest with
          | .error _ => .error .MalformedLineProgram
          | .ok (f, rest') =>
            runLineFuel h fuel rest' ⟨{ st.regs with file := f }, st.rows⟩
        else if op = 5 then
          match ulebDecode rest with
          | .error _ => .error .MalformedLineProgram
          | .ok (col, rest') =>
            runLineFuel h fuel rest' ⟨{ st.regs with column := col }, st.rows⟩
        else if op = 6 then
          runLineFuel h fuel rest
            ⟨{ st.regs with isStmt := !st.regs.isStmt }, st.rows⟩
        else
          match skipUlebs (h.stdOpcodeLengths.getD (op - 1) 0) rest with
          | .error e => .error e
          | .ok rest' => runLineFuel h fuel rest' st
      else
        let adjusted := op - h.opcodeBase
        let newRegs :=
          { st.regs with
              address := st.regs.address
                + adjusted / h.lineRange * h.minimumInstructionLength,
              line := st.regs.line + h.lineBase
                + ((adjusted % h.lineRange : Nat) : Int),
              basicBlock := false }
        runLineFuel h fuel rest ⟨newRegs, st.rows ++ [newRegs]⟩

/-- Modelled from the spec: run a line-number program to completion. -/
def runLineProgram (h : LineHeader) (bs : List Nat) (st : LineState) :
    Except DwarfError LineState :=
  runLineFuel h (bs.length + 1) bs st

/-- The header of the spec's section-8 line-number scenario:
`line_base = -5`, `line_range = 14`, `minimum_instruction_length = 1`,
`opcode_base = 13`. -/
def sampleLineHeader : LineHeader :=
  ⟨1, -5, 14, 13, true, [0, 1, 1, 1, 1, 0, 0, 0, 1, 0, 0, 1]⟩

/-- A fresh interpreter state for `sampleLineHeader`. -/
def sampleLineState : LineState := ⟨initialRegs sampleLineHeader, []⟩

/-! ## AbbreviationTable, DIEs, CompilationUnitParser (spec sections 4.3-4.5)

Modelled from the spec: abbreviation declarations keyed by code; DIEs
decoded against them; a unit is one header plus one root DIE subtree whose
decoding must end exactly at the unit's declared byte extent; a
section-level driver that records one result per unit and continues past
failed units. -/

/-- An abbreviation declaration: tag, has-children flag, ordered
(attribute, form) pairs. -/
structure AbbrevDecl where
  tag : Nat
  hasChildren : Bool
  attrForms : List (Nat × Nat)
  deriving DecidableEq, Repr

/-- Look up an abbreviation code in a table. -/
def lookupAbbrev : List (Nat × AbbrevDecl) → Nat → Option AbbrevDecl
  | [], _ => none
  | (c, d) :: rest, code => if c = code then some d else lookupAbbrev rest code

/-- A decoded attribute value. -/
inductive FormValue where
  | uint (v : Nat)
  | sint (v : Int)
  | str (bytes : List Nat)
  | flag (b : Bool)
  deriving DecidableEq, Repr

/-- Read `n` raw bytes at a position, or fail with `TruncatedData`. -/
def readFixedAt (data : List Nat) (pos n : Nat) :
    Except DwarfError (List Nat × Nat) :=
  if pos + n ≤ data.length then .ok ((data.drop pos).take n, pos + n)
  else .error .TruncatedData

/-- Modelled from the spec: class-specific read for a form code.
Supported: `data1/2/4/8` (0x0b/0x05/0x06/0x07), `addr` (0x01), `udata`
(0x0f), `sdata` (0x0d), inline `string` (0x08), `flag_present` (0x19);
unrecognized forms fail with `UnsupportedForm`. -/
def decodeForm (addrSize : Nat) (data : List Nat) (pos form : Nat) :
    Except DwarfError (FormValue × Nat) :=
  if form = 0x0b then
    match readFixedAt data pos 1 with
    | .ok (bs, p) => .ok (.uint (leBytesVal bs), p)
    | .error e => .error e
  else if form = 0x05 then
    match readFixedAt data pos 2 with
    | .ok (bs, p) => .ok (.uint (leBytesVal bs), p)
    | .error e => .error e
  else if form = 0x06 then
    match readFixedAt data pos 4 with
    | .ok (bs, p) => .ok (.uint (leBytesVal bs), p)
    | .error e => .error e
  else if form = 0x07 then
    match readFixedAt data pos 8 with
    | .ok (bs, p) => .ok (.uint (leBytesVal bs), p)
    | .error e => .error e
  else if form = 0x01 then
    match readFixedAt data pos addrSize with
    | .ok (bs, p) => .ok (.uint (leBytesVal bs), p)
    | .error e => .error e
  else if form = 0x0f then
    match readUlebAt data pos with
    | .ok (v, p) => .ok (.uint v, p)
    | .error e => .error e
  else if form = 0x0d then
    match readSlebAt data pos with
    | .ok (v, p) => .ok (.sint v, p)
    | .error e => .error e
  else if form = 0x08 then
    match takeUntilNull (data.drop pos) with
    | some (s, k) => .ok (.str s, pos + k)
    | none => .error .TruncatedData
  else if form = 0x19 then .ok (.flag true, pos)
  else .error .UnsupportedForm

/-- Decode the attribute list of a declaration in order. -/
def decodeAttrs (addrSize : Nat) (data : List Nat) :
    List (Nat × Nat) → Nat → Except DwarfError (List (Nat × FormValue) × Nat)
  | [], pos => .ok ([], pos)
  | (attr, form) :: rest, pos =>
    match decodeForm addrSize data pos form with
    | .ok (v, pos') =>
      match decodeAttrs addrSize data rest pos' with
      | .ok (vs, pos'') => .ok ((attr, v) :: vs, pos'')
      | .error e => .error e
    | .error e => .error e

/-- A Debugging Information Entry: offset (stable identity), tag, decoded
attributes, and child subtrees. -/
inductive DIE where
  | node (offset tag : Nat) (attrs : List (Nat × FormValue))
      (children : List DIE)

/-- The offset of a DIE. -/
def DIE.offset : DIE → Nat
  | .node o _ _ _ => o

/-- The children of a DIE. -/
def DIE.children : DIE → List DIE
  | .node _ _ _ c => c

mutual

/-- Offsets of a DIE subtree in pre-order DFS. -/
def preorder : DIE → List Nat
  | .node off _ _ kids => off :: preorderList kids

/-- Offsets of a forest in pre-order DFS. -/
def preorderList : List DIE → List Nat
  | [] => []
  | d :: ds => preorder d ++ preorderList ds

end

mutual

/-- A DIE together with all of its descendants. -/
def subDIEs : DIE → List DIE
  | .node off t a kids => .node off t a kids :: subDIEsList kids

/-- All DIEs of a forest, descendants included. -/
def subDIEsList : List DIE → List DIE
  | [] => []
  | d :: ds => subDIEs d ++ subDIEsList ds

end

mutual

/-- Modelled from the spec: decode one DIE at `pos`.  Reads the
abbreviation code (code 0 is the no-more-siblings marker, yielding no
DIE), looks it up (failing with `UnknownAbbreviationCode` when absent),
decodes the declaration's attributes in order, and, when `has_children`,
decodes the child sequence.  `fuel` bounds recursion depth and sibling
count; it exceeds the unit's byte extent when called from
`parseUnitBlock`, so exhaustion (`MalformedTree`) is unreachable on any
input whose DIEs each consume at least one byte. -/
def parseDIE (tbl : List (Nat × AbbrevDecl)) (addrSize : Nat)
    (data : List Nat) (fuel pos : Nat) :
    Except DwarfError (Option DIE × Nat) :=
  match fuel with
  | 0 => .error .MalformedTree
  | fuel' + 1 =>
    match readUlebAt data pos with
    | .error e => .error e
    | .ok (code, pos') =>
      if code = 0 then .ok (none, pos')
      else
        match lookupAbbrev tbl code with
        | none => .error .UnknownAbbreviationCode
        | some decl =>
          match decodeAttrs addrSize data decl.attrForms pos' with
          | .error e => .error e
          | .ok (attrs, pos'') =>
            if decl.hasChildren then
              match parseChildren tbl addrSize data fuel' pos'' with
              | .error e => .error e
              | .ok (kids, pos''') =>
                .ok (some (.node pos decl.tag attrs kids), pos''')
            else .ok (some (.node pos decl.tag attrs []), pos'')

/-- Modelled from the spec: decode a sibling sequence until the
terminating 0 code. -/
def parseChildren (tbl : List (Nat × AbbrevDecl)) (addrSize : Nat)
    (data : List Nat) (fuel pos : Nat) :
    Except DwarfError (List DIE × Nat) :=
  match fuel with
  | 0 => .error .MalformedTree
  | fuel' + 1 =>
    match parseDIE tbl addrSize data fuel' pos with
    | .error e => .error e
    | .ok (none, pos') => .ok ([], pos')
    | .ok (some d, pos') =>
      match parseChildren tbl addrSize data fuel' pos' with
      | .error e => .error e
      | .ok (ds, pos'') => .ok (d :: ds, pos'')

end

/-- A parsed compilation unit: header fields and the root DIE. -/
structure CompilationUnit where
  version : Nat
  abbrevOffset : Nat
  addrSize : Nat
  root : DIE

/-- Modelled from the spec: parse one compilation unit from its byte
extent (4-byte length, 2-byte version, 4-byte abbreviation offset, 1-byte
address size, then exactly one root DIE subtree).  The declared length
must be reached exactly at completion, else `TruncatedData`. -/
def parseUnitBlock (tbl : List (Nat × AbbrevDecl)) (block : List Nat) :
    Except DwarfError CompilationUnit :=
  if block.length < 11 then .error .TruncatedData
  else
    match parseDIE tbl (leBytesVal ((block.drop 10).take 1)) block
        (block.length + 1) 11 with
    | .error e => .error e
    | .ok (none, _) => .error .MalformedTree
    | .ok (some d, pos') =>
      if pos' = block.length then
        .ok ⟨leBytesVal ((block.drop 4).take 2),
          leBytesVal ((block.drop 6).take 4),
          leBytesVal ((block.drop 10).take 1), d⟩
      else .error .TruncatedData

/-- Modelled from the spec: fuelled section driver.  Reads each unit's
4-byte length, delimits the unit's byte extent from it, parses the unit
from its own slice, records the result against the unit's offset, and
continues at the declared boundary regardless of that unit's outcome. -/
def parseSectionFuel (tbl : List (Nat × AbbrevDecl)) :
    Nat → List Nat → Nat → List (Nat × Except DwarfError CompilationUnit)
  | 0, _, _ => []
  | fuel + 1, data, off =>
    if data = [] then []
    else if data.length < 4 then [(off, .error .TruncatedData)]
    else
      let len := leBytesVal (data.take 4)
      if data.length < 4 + len then [(off, .error .TruncatedData)]
      else
        (off, parseUnitBlock tbl (data.take (4 + len))) ::
          parseSectionFuel tbl fuel (data.drop (4 + len)) (off + 4 + len)

/-- Modelled from the spec: parse every unit of a `.debug_info` section,
producing one result per unit. -/
def parseSection (tbl : List (Nat × AbbrevDecl)) (data : List Nat)
    (off : Nat) : List (Nat × Except DwarfError CompilationUnit) :=
  parseSectionFuel tbl (data.length + 1) data off

/-- The per-unit byte extents of a section, each paired with its offset;
`none` marks a trailing fragment too short for a unit. -/
def unitBlocksFuel : Nat → List Nat → Nat → List (Nat × Option (List Nat))
  | 0, _, _ => []
  | fuel + 1, data, off =>
    if data = [] then []
    else if data.length < 4 then [(off, none)]
    else
      let len := leBytesVal (data.take 4)
      if data.length < 4 + len then [(off, none)]
      else
        (off, some (data.take (4 + len))) ::
          unitBlocksFuel fuel (data.drop (4 + len)) (off + 4 + len)

/-- The per-unit byte extents of a section. -/
def unitBlocks (data : List Nat) (off : Nat) :
    List (Nat × Option (List Nat)) :=
  unitBlocksFuel (data.length + 1) data off

/-- The abbreviation table used by the concrete scenarios: code 1 is a
`compile_unit` with children and one `data1` attribute, code 2 a
`subprogram` without children and one `data1` attribute. -/
def sampleAbbrevs : List (Nat × AbbrevDecl) :=
  [(1, ⟨0x11, true, [(0x03, 0x0b)]⟩), (2, ⟨0x2e, false, [(0x3a, 0x0b)]⟩)]

/-- A well-formed unit block for `sampleAbbrevs`: root with one child. -/
def sampleUnitBlock : List Nat :=
  [12, 0, 0, 0, 4, 0, 0, 0, 0, 0, 8, 1, 42, 2, 7, 0]

/-- A corrupt unit block: its declared length is understated by 4 bytes,
cutting the unit off in the middle of its root DIE's attributes. -/
def corruptUnitBlock : List Nat :=
  [8, 0, 0, 0, 4, 0, 0, 0, 0, 0, 8, 1]

/-- A two-unit section: the corrupt unit followed by the well-formed
unit. -/
def sampleSection : List Nat := corruptUnitBlock ++ sampleUnitBlock

/-- The unit `sampleUnitBlock` parses to. -/
def sampleUnit : CompilationUnit :=
  ⟨4, 0, 8, .node 11 0x11 [(0x03, .uint 42)] [.node 13 0x2e [(0x3a, .uint 7)] []]⟩

/-! ## Configuration header (`Sources/CLibdwarf/include/config.h`)

Translated from the source: the header's conditional and unconditional
macro definitions, as a function of what the compiler predefines.  A
macro's state after preprocessing is `Option Nat` (`none` = undefined). -/

/-- The compiler-predefined macros that `config.h` consults. -/
structure CompilerEnv where
  bigEndianPredefined : Bool
  deriving DecidableEq, Repr

/-- `config.h` lines 27-31: `WORDS_BIGENDIAN` is defined to 1 when the
compiler predefines `__BIG_ENDIAN__`, and `#undef`'d otherwise. -/
def WORDS_BIGENDIAN (e : CompilerEnv) : Option Nat :=
  if e.bigEndianPredefined then some 1 else none

/-- `config.h` line 34: `#undef HAVE_ZLIB`, unconditionally. -/
def HAVE_ZLIB (_ : CompilerEnv) : Option Nat := none

/-- `config.h` line 35: `#undef HAVE_ZLIB_H`, unconditionally. -/
def HAVE_ZLIB_H (_ : CompilerEnv) : Option Nat := none

/-- `config.h` line 36: `#undef HAVE_ZSTD`, unconditionally. -/
def HAVE_ZSTD (_ : CompilerEnv) : Option Nat := none

/-- `config.h` line 37: `#undef HAVE_ZSTD_H`, unconditionally. -/
def HAVE_ZSTD_H (_ : CompilerEnv) : Option Nat := none

/-- `config.h` line 40: `#define PACKAGE "libdwarf"`. -/
def PACKAGE : String := "libdwarf"

/-- `config.h` line 43: `#define PACKAGE_VERSION "0.0.0"`. -/
def PACKAGE_VERSION : String := "0.0.0"

/-- `config.h` line 44: `#define PACKAGE_STRING PACKAGE " " PACKAGE_VERSION`;
adjacent C string literals concatenate. -/
def PACKAGE_STRING : String := PACKAGE ++ " " ++ PACKAGE_VERSION

/-! ## Theorems -/

/-- Decoding the canonical unsigned encoding from any accumulator state
yields the accumulated value, provided the final value fits in 64 bits. -/
theorem ulebCore_encode (n : Nat) :
    ∀ shift acc, acc + n * 2 ^ shift < 2 ^ 64 →
      ulebCore (ulebEncode n) shift acc = .ok (acc + n * 2 ^ shift, []) := by
  induction n using ulebEncode.induct with
  | case1 n h =>
    intro shift acc hlt
    rw [ulebEncode, dif_pos h]
    have h1 : n % 128 = n := Nat.mod_eq_of_lt h
    have h2 : n % 256 = n := Nat.mod_eq_of_lt (by omega)
    simp only [ulebCore, h1, h2]
    rw [if_neg (by omega), if_pos (by omega)]
  | case2 n h ih =>
    intro shift acc hlt
    rw [ulebEncode, dif_neg h]
    have hb1 : (n % 128 + 128) % 128 = n % 128 := by omega
    have hb2 : (n % 128 + 128) % 256 = n % 128 + 128 := by omega
    have hmod : n % 128 ≤ n := Nat.mod_le n 128
    have hkey : acc + n % 128 * 2 ^ shift + n / 128 * 2 ^ (shift + 7)
        = acc + n * 2 ^ shift := by
      have hd : n % 128 + 128 * (n / 128) = n := Nat.mod_add_div n 128
      calc acc + n % 128 * 2 ^ shift + n / 128 * 2 ^ (shift + 7)
          = acc + (n % 128 + 128 * (n / 128)) * 2 ^ shift := by
            rw [pow_add]; ring
        _ = acc + n * 2 ^ shift := by rw [hd]
    simp only [ulebCore, hb1, hb2]
    rw [if_neg (by nlinarith [Nat.one_le_two_pow (n := shift)]),
      if_neg (by omega)]
    rw [ih (shift + 7) (acc + n % 128 * 2 ^ shift) (by omega), hkey]

/-- A successful unsigned decode that consumes the whole input is bounded
by the number of 7-bit groups the input can carry. -/
theorem ulebCore_ok_bound :
    ∀ (bs : List Nat) shift acc v, ulebCore bs shift acc = .ok (v, []) →
      v ≤ acc + 2 ^ shift * (128 ^ bs.length - 1) := by
  intro bs
  induction bs with
  | nil => intro shift acc v h; simp [ulebCore] at h
  | cons b rest ih =>
    intro shift acc v h
    simp only [ulebCore] at h
    by_cases hov : 2 ^ 64 ≤ acc + b % 128 * 2 ^ shift
    · rw [if_pos hov] at h; exact absurd h (by simp)
    · rw [if_neg hov] at h
      by_cases hterm : b % 256 < 128
      · rw [if_pos hterm] at h
        obtain ⟨h1, h2⟩ := by simpa using h
        subst h1
        have : b % 128 ≤ 127 := by omega
        have hp : 1 ≤ (2 : Nat) ^ shift := Nat.one_le_two_pow
        simp only [List.length_cons]
        calc acc + b % 128 * 2 ^ shift ≤ acc + 127 * 2 ^ shift := by nlinarith
          _ ≤ acc + 2 ^ shift * (128 ^ (rest.length + 1) - 1) := by
              have h128 : (128 : Nat) ≤ 128 ^ (rest.length + 1) :=
                Nat.le_self_pow (by omega) 128
              have h127 : 127 ≤ 128 ^ (rest.length + 1) - 1 := by omega
              have := Nat.mul_le_mul_left (2 ^ shift) h127
              nlinarith
      · rw [if_neg hterm] at h
        have hrec := ih (shift + 7) (acc + b % 128 * 2 ^ shift) v h
        have hB : 1 ≤ (128 : Nat) ^ rest.length := Nat.one_le_pow _ _ (by omega)
        have hmod : b % 128 ≤ 127 := by omega
        have hstep : 127 + 128 * (128 ^ rest.length - 1)
            = 128 ^ (rest.length + 1) - 1 := by
          rw [pow_succ]; omega
        calc v ≤ acc + b % 128 * 2 ^ shift
              + 2 ^ (shift + 7) * (128 ^ rest.length - 1) := hrec
          _ ≤ acc + 2 ^ shift * (127 + 128 * (128 ^ rest.length - 1)) := by
              rw [pow_add]; nlinarith [Nat.one_le_two_pow (n := shift)]
          _ = acc + 2 ^ shift * (128 ^ (rest.length + 1) - 1) := by
              rw [hstep]
          _ = acc + 2 ^ shift * (128 ^ (b :: rest).length - 1) := by
              simp

/-- The canonical unsigned encoding needs at most `k` bytes when the value
fits in `7 * k` bits. -/
theorem ulebEncode_length_le (n : Nat) :
    ∀ k, 1 ≤ k → n < 128 ^ k → (ulebEncode n).length ≤ k := by
  induction n using ulebEncode.induct with
  | case1 n h =>
    intro k hk _
    rw [ulebEncode, dif_pos h]
    simpa using hk
  | case2 n h ih =>
    intro k hk hlt
    rw [ulebEncode, dif_neg h]
    have hk2 : 2 ≤ k := by
      by_contra hcon
      interval_cases k
      · simp at hlt; omega
    have hdiv : n / 128 < 128 ^ (k - 1) := by
      rw [Nat.div_lt_iff_lt_mul (by omega)]
      calc n < 128 ^ k := hlt
        _ = 128 ^ (k - 1) * 128 := by
            rw [← pow_succ]; congr 1; omega
    have := ih (k - 1) (by omega) hdiv
    simp only [List.length_cons]
    omega

/-- The canonical signed encoding is never empty. -/
theorem slebEncode_length_pos (m : Int) : 1 ≤ (slebEncode m).length := by
  rw [slebEncode]; split <;> simp

/-- The canonical signed encoding needs at most `k` bytes when the value
fits in `7 * k` bits including its sign bit. -/
theorem slebEncode_length_le (m : Int) :
    ∀ k, 1 ≤ k → -(2 ^ (7 * k - 1)) ≤ m → m < 2 ^ (7 * k - 1) →
      (slebEncode m).length ≤ k := by
  induction m using slebEncode.induct with
  | case1 m h =>
    intro k hk _ _
    rw [slebEncode, dif_pos h]
    simpa using hk
  | case2 m h ih =>
    intro k hk hlo hhi
    rw [slebEncode, dif_neg h]
    have hk2 : 2 ≤ k := by
      rcases Nat.lt_or_ge k 2 with hc | hc
      · interval_cases k
        · norm_num at hlo hhi
          exact absurd ⟨hlo, hhi⟩ h
      · exact hc
    have hpow : (2 : Int) ^ (7 * k - 1) = 2 ^ (7 * (k - 1) - 1) * 128 := by
      rw [show (128 : Int) = 2 ^ 7 by norm_num, ← pow_add]
      congr 1
      omega
    have hdlo : -(2 ^ (7 * (k - 1) - 1)) ≤ m / 128 := by
      rw [Int.le_ediv_iff_mul_le (by norm_num)]
      calc -(2 ^ (7 * (k - 1) - 1) : Int) * 128 = -(2 ^ (7 * k - 1)) := by
            rw [hpow]; ring
        _ ≤ m := hlo
    have hdhi : m / 128 < 2 ^ (7 * (k - 1) - 1) := by
      rw [Int.ediv_lt_iff_lt_mul (by norm_num)]
      calc m < 2 ^ (7 * k - 1) := hhi
        _ = 2 ^ (7 * (k - 1) - 1) * 128 := hpow
    have := ih (k - 1) (by omega) hdlo hdhi
    simp only [List.length_cons]
    omega

/-- Decoding the canonical signed encoding from any accumulator state
yields the accumulated value, provided every byte sits below bit 64 and
the final value is in the signed 64-bit range. -/
theorem slebCore_encode (m : Int) :
    ∀ (shift acc : Nat), shift + 7 * ((slebEncode m).length - 1) ≤ 63 →
      -(2 ^ 63) ≤ (acc : Int) + m * 2 ^ shift →
      (acc : Int) + m * 2 ^ shift < 2 ^ 63 →
      slebCore (slebEncode m) shift acc = .ok ((acc : Int) + m * 2 ^ shift, []) := by
  induction m using slebEncode.induct with
  | case1 m h =>
    intro shift acc hsh hlo hhi
    rw [slebEncode, dif_pos h] at hsh ⊢
    obtain ⟨h1, h2⟩ := h
    simp only [List.length_singleton] at hsh
    have hm0 : (0 : Int) ≤ m % 128 := Int.emod_nonneg m (by norm_num)
    have hm1 : m % 128 < 128 := Int.emod_lt_of_pos m (by norm_num)
    have hcast : ((m % 128).toNat : Int) = m % 128 := Int.toNat_of_nonneg hm0
    have hb : (m % 128).toNat < 128 := by omega
    simp only [slebCore]
    rw [if_neg (by omega),
      Nat.mod_eq_of_lt (show (m % 128).toNat < 256 by omega)]
    rw [if_pos hb, Nat.mod_eq_of_lt hb]
    have hveq : (if (m % 128).toNat < 64
          then ((acc + (m % 128).toNat * 2 ^ shift : Nat) : Int)
          else ((acc + (m % 128).toNat * 2 ^ shift : Nat) : Int) - 2 ^ (shift + 7))
        = (acc : Int) + m * 2 ^ shift := by
      rcases le_or_lt 0 m with hm | hm
      · have hmm : m % 128 = m := Int.emod_eq_of_lt hm (by omega)
        rw [if_pos (by omega)]
        push_cast [hcast]
        rw [hmm]
      · have hmm : m % 128 = m + 128 := by omega
        rw [if_neg (by omega)]
        push_cast [hcast]
        rw [hmm, pow_add]
        ring
    rw [hveq, if_neg (by push_neg; exact ⟨hlo, hhi⟩)]
  | case2 m h ih =>
    intro shift acc hsh hlo hhi
    rw [slebEncode, dif_neg h] at hsh ⊢
    have hm0 : (0 : Int) ≤ m % 128 := Int.emod_nonneg m (by norm_num)
    have hm1 : m % 128 < 128 := Int.emod_lt_of_pos m (by norm_num)
    have hcast : ((m % 128).toNat : Int) = m % 128 := Int.toNat_of_nonneg hm0
    have hb : (m % 128).toNat < 128 := by omega
    have hlen := slebEncode_length_pos (m / 128)
    simp only [List.length_cons] at hsh
    simp only [slebCore]
    rw [if_neg (by omega)]
    rw [Nat.mod_eq_of_lt (show (m % 128).toNat + 128 < 256 by omega)]
    rw [if_neg (by omega),
      show ((m % 128).toNat + 128) % 128 = (m % 128).toNat by omega]
    have hval : (((acc + (m % 128).toNat * 2 ^ shift : Nat)) : Int)
        + (m / 128) * 2 ^ (shift + 7) = (acc : Int) + m * 2 ^ shift := by
      push_cast [hcast]
      have hd : 128 * (m / 128) + m % 128 = m := Int.ediv_add_emod m 128
      rw [pow_add]
      linear_combination (2 : Int) ^ shift * hd
    rw [ih (shift + 7) (acc + (m % 128).toNat * 2 ^ shift) (by omega)
      (by rw [hval]; exact hlo) (by rw [hval]; exact hhi), hval]

/-- A successful signed decode that consumes the whole input represents a
value within the signed width of the consumed bytes. -/
theorem slebCore_ok_repr :
    ∀ (bs : List Nat) shift acc m, slebCore bs shift acc = .ok (m, []) →
      ∃ t : Int, m = (acc : Int) + t * 2 ^ shift ∧
        -(2 ^ (7 * bs.length - 1)) ≤ t ∧ t < 2 ^ (7 * bs.length - 1) := by
  intro bs
  induction bs with
  | nil => intro shift acc m h; simp [slebCore] at h
  | cons b rest ih =>
    intro shift acc m h
    simp only [slebCore] at h
    by_cases hsh : 64 ≤ shift
    · rw [if_pos hsh] at h; exact absurd h (by simp)
    rw [if_neg hsh] at h
    by_cases hterm : b % 256 < 128
    · rw [if_pos hterm] at h
      by_cases hsign : b % 128 < 64
      · rw [if_pos hsign] at h
        split at h
        · exact absurd h (by simp)
        · obtain ⟨h1, h2⟩ := by simpa using h
          refine ⟨((b % 128 : Nat) : Int), ?_, ?_, ?_⟩
          · rw [← h1]; push_cast; ring
          · have : (0 : Int) ≤ ((b % 128 : Nat) : Int) := by positivity
            have hp : (0 : Int) < 2 ^ (7 * (b :: rest).length - 1) := by positivity
            omega
          · have hlen : 6 ≤ 7 * (b :: rest).length - 1 := by
              simp only [List.length_cons]; omega
            have : ((b % 128 : Nat) : Int) < 2 ^ 6 := by
              have : b % 128 < 64 := hsign
              omega
            calc ((b % 128 : Nat) : Int) < 2 ^ 6 := this
              _ ≤ 2 ^ (7 * (b :: rest).length - 1) :=
                  pow_le_pow_right₀ (by norm_num) hlen
      · rw [if_neg hsign] at h
        split at h
        · exact absurd h (by simp)
        · obtain ⟨h1, h2⟩ := by simpa using h
          refine ⟨((b % 128 : Nat) : Int) - 128, ?_, ?_, ?_⟩
          · rw [← h1]; push_cast [pow_add]; ring
          · have hlen : 6 ≤ 7 * (b :: rest).length - 1 := by
              simp only [List.length_cons]; omega
            have hmod : b % 128 < 128 := by omega
            have h64 : (-(2 ^ 6) : Int) ≤ ((b % 128 : Nat) : Int) - 128 := by
              have : 64 ≤ b % 128 := by omega
              omega
            calc (-(2 ^ (7 * (b :: rest).length - 1)) : Int)
                ≤ -(2 ^ 6) := by
                  have := pow_le_pow_right₀ (show (1:Int) ≤ 2 by norm_num) hlen
                  omega
              _ ≤ ((b % 128 : Nat) : Int) - 128 := h64
          · have hmod : b % 128 < 128 := by omega
            have hp : (0 : Int) < 2 ^ (7 * (b :: rest).length - 1) := by positivity
            omega
    · rw [if_neg hterm] at h
      obtain ⟨t', ht'1, ht'2, ht'3⟩ := ih _ _ _ h
      have hr : rest ≠ [] := by
        intro he; subst he; simp [slebCore] at h
      have hr1 : 1 ≤ rest.length := by
        cases rest with
        | nil => exact absurd rfl hr
        | cons x xs => simp
      have hpow : (2 : Int) ^ (7 * (b :: rest).length - 1)
          = 128 * 2 ^ (7 * rest.length - 1) := by
        rw [show (128 : Int) = 2 ^ 7 by norm_num, ← pow_add]
        congr 1
        simp only [List.length_cons]
        omega
      refine ⟨((b % 128 : Nat) : Int) + 128 * t', ?_, ?_, ?_⟩
      · rw [ht'1]; push_cast [pow_add]; ring
      · rw [hpow]
        have hb0 : (0 : Int) ≤ ((b % 128 : Nat) : Int) := by positivity
        linarith
      · rw [hpow]
        have hb0 : ((b % 128 : Nat) : Int) ≤ 127 := by
          have : b % 128 < 128 := by omega
          omega
        linarith

/-- C1: for every integer within the supported 64-bit width, encoding it
as LEB128 (unsigned or signed) and then decoding yields the original
value, and the produced encoding is minimal-length: no byte sequence that
decodes to the same value is shorter. -/
theorem leb128_roundtrip_and_minimal (n : Nat) (m : Int) (bsu bss : List Nat)
    (hn : n < 2 ^ 64) (hm1 : -(2 ^ 63) ≤ m) (hm2 : m < 2 ^ 63)
    (hu : ulebDecode bsu = .ok (n, [])) (hs : slebDecode bss = .ok (m, [])) :
    ulebDecode (ulebEncode n) = .ok (n, []) ∧
    slebDecode (slebEncode m) = .ok (m, []) ∧
    (ulebEncode n).length ≤ bsu.length ∧
    (slebEncode m).length ≤ bss.length := by
  refine ⟨?_, ?_, ?_, ?_⟩
  · have := ulebCore_encode n 0 0 (by simpa using hn)
    simpa [ulebDecode] using this
  · have hlen : (slebEncode m).length ≤ 10 := by
      refine slebEncode_length_le m 10 (by norm_num) ?_ ?_
      · calc (-(2 ^ (7 * 10 - 1)) : Int) ≤ -(2 ^ 63) := by norm_num
          _ ≤ m := hm1
      · calc m < 2 ^ 63 := hm2
          _ ≤ 2 ^ (7 * 10 - 1) := by norm_num
    have := slebCore_encode m 0 0 (by omega) (by simpa using hm1)
      (by simpa using hm2)
    simpa [slebDecode] using this
  · have hne : bsu ≠ [] := by
      intro he; subst he; simp [ulebDecode, ulebCore] at hu
    have hlen1 : 1 ≤ bsu.length := by
      cases bsu with
      | nil => exact absurd rfl hne
      | cons x xs => simp
    have hbound := ulebCore_ok_bound bsu 0 0 n hu
    refine ulebEncode_length_le n bsu.length hlen1 ?_
    have hp : 1 ≤ (128 : Nat) ^ bsu.length := Nat.one_le_pow _ _ (by omega)
    simp only [pow_zero, one_mul] at hbound
    omega
  · have hne : bss ≠ [] := by
      intro he; subst he; simp [slebDecode, slebCore] at hs
    have hlen1 : 1 ≤ bss.length := by
      cases bss with
      | nil => exact absurd rfl hne
      | cons x xs => simp
    obtain ⟨t, ht1, ht2, ht3⟩ := slebCore_ok_repr bss 0 0 m hs
    have hmt : m = t := by simpa using ht1
    subst hmt
    exact slebEncode_length_le m bss.length hlen1 ht2 ht3

/-- Witness for C1 at `n = 624485`, `m = -123456`, with the canonical
byte strings as the competing encodings. -/
theorem leb128_roundtrip_and_minimal_witness :
    ulebDecode (ulebEncode 624485) = .ok (624485, []) ∧
    slebDecode (slebEncode (-123456)) = .ok (-123456, []) ∧
    (ulebEncode 624485).length ≤ [229, 142, 38].length ∧
    (slebEncode (-123456)).length ≤ [192, 187, 120].length :=
  leb128_roundtrip_and_minimal 624485 (-123456) [229, 142, 38]
    [192, 187, 120] (by norm_num) (by norm_num) (by norm_num)
    (by rfl) (by rfl)

/-- Pushing one continuation byte into the overflow predicate. -/
theorem UOverflowFrom_cons (b : Nat) (rest : List Nat) (shift acc : Nat)
    (hcontb : 128 ≤ b % 256) (hnov : acc + b % 128 * 2 ^ shift < 2 ^ 64) :
    UOverflowFrom (b :: rest) shift acc ↔
      UOverflowFrom rest (shift + 7) (acc + b % 128 * 2 ^ shift) := by
  constructor
  · rintro ⟨k, hk, hcont, hov⟩
    cases k with
    | zero =>
      have hacc : accVal (List.take 1 (b :: rest)) = b % 128 := by
        simp [accVal]
      rw [hacc] at hov
      exact absurd hov (by linarith)
    | succ k' =>
      refine ⟨k', by simpa using hk, ?_, ?_⟩
      · intro j hj
        have := hcont (j + 1) (by omega)
        simpa using this
      · have hacc : accVal (List.take (k' + 1 + 1) (b :: rest))
            = b % 128 + 128 * accVal (List.take (k' + 1) rest) := by
          rw [List.take_succ_cons, accVal]
        rw [hacc] at hov
        calc 2 ^ 64
            ≤ acc + (b % 128 + 128 * accVal (List.take (k' + 1) rest)) * 2 ^ shift :=
              hov
          _ = acc + b % 128 * 2 ^ shift
              + accVal (List.take (k' + 1) rest) * 2 ^ (shift + 7) := by
              rw [pow_add]; ring
  · rintro ⟨k', hk', hcont, hov⟩
    refine ⟨k' + 1, by simpa using hk', ?_, ?_⟩
    · intro j hj
      cases j with
      | zero => simpa using hcontb
      | succ i =>
        have := hcont i (by omega)
        simpa using this
    · have hacc : accVal (List.take (k' + 1 + 1) (b :: rest))
          = b % 128 + 128 * accVal (List.take (k' + 1) rest) := by
        rw [List.take_succ_cons, accVal]
      rw [hacc]
      calc 2 ^ 64
          ≤ acc + b % 128 * 2 ^ shift
            + accVal (List.take (k' + 1) rest) * 2 ^ (shift + 7) := hov
        _ = acc + (b % 128 + 128 * accVal (List.take (k' + 1) rest)) * 2 ^ shift := by
            rw [pow_add]; ring

/-- The unsigned loop reports `Overflow` exactly when some examined byte
pushes the accumulated value past 64 bits. -/
theorem ulebCore_overflow_iff :
    ∀ (bs : List Nat) (shift acc : Nat),
      ulebCore bs shift acc = .error .Overflow ↔ UOverflowFrom bs shift acc := by
  intro bs
  induction bs with
  | nil => intro shift acc; simp [ulebCore, UOverflowFrom]
  | cons b rest ih =>
    intro shift acc
    simp only [ulebCore]
    by_cases hov : 2 ^ 64 ≤ acc + b % 128 * 2 ^ shift
    · rw [if_pos hov]
      constructor
      · intro _
        exact ⟨0, by simp, by omega, by simpa [accVal] using hov⟩
      · intro _; rfl
    · rw [if_neg hov]
      by_cases hterm : b % 256 < 128
      · rw [if_pos hterm]
        constructor
        · intro hcon; exact absurd hcon (by simp)
        · rintro ⟨k, hk, hcont, hov2⟩
          cases k with
          | zero =>
            have hacc : accVal (List.take 1 (b :: rest)) = b % 128 := by
              simp [accVal]
            rw [hacc] at hov2
            exact absurd hov2 hov
          | succ k' =>
            have := hcont 0 (by omega)
            simp at this
            omega
      · rw [if_neg hterm]
        rw [ih (shift + 7) (acc + b % 128 * 2 ^ shift)]
        exact (UOverflowFrom_cons b rest shift acc (by omega) (not_le.mp hov)).symm

/-- The unsigned loop reports `TruncatedData` exactly when every available
byte carries the continuation bit and no overflow occurs first. -/
theorem ulebCore_truncated_iff :
    ∀ (bs : List Nat) (shift acc : Nat),
      ulebCore bs shift acc = .error .TruncatedData ↔
        AllCont bs ∧ ¬ UOverflowFrom bs shift acc := by
  intro bs
  induction bs with
  | nil => intro shift acc; simp [ulebCore, AllCont, UOverflowFrom]
  | cons b rest ih =>
    intro shift acc
    simp only [ulebCore]
    by_cases hov : 2 ^ 64 ≤ acc + b % 128 * 2 ^ shift
    · rw [if_pos hov]
      constructor
      · intro hcon; exact absurd hcon (by simp)
      · rintro ⟨_, hnuov⟩
        exact (hnuov ⟨0, by simp, by omega, by simpa [accVal] using hov⟩).elim
    · rw [if_neg hov]
      by_cases hterm : b % 256 < 128
      · rw [if_pos hterm]
        constructor
        · intro hcon; exact absurd hcon (by simp)
        · rintro ⟨hall, _⟩
          have := hall b (by simp)
          omega
      · rw [if_neg hterm]
        rw [ih (shift + 7) (acc + b % 128 * 2 ^ shift)]
        have hcons := UOverflowFrom_cons b rest shift acc (by omega) (not_le.mp hov)
        constructor
        · rintro ⟨hall, hno⟩
          refine ⟨?_, fun h => hno (hcons.mp h)⟩
          intro x hx
          rcases List.mem_cons.mp hx with rfl | hx'
          · omega
          · exact hall x hx'
        · rintro ⟨hall, hno⟩
          exact ⟨fun x hx => hall x (List.mem_cons_of_mem b hx),
            fun h => hno (hcons.mpr h)⟩

/-- The unsigned loop only ever fails with `Overflow` or `TruncatedData`. -/
theorem ulebCore_error_cases :
    ∀ (bs : List Nat) (shift acc : Nat) (e : DwarfError),
      ulebCore bs shift acc = .error e →
        e = .Overflow ∨ e = .TruncatedData := by
  intro bs
  induction bs with
  | nil =>
    intro shift acc e h
    simp only [ulebCore, Except.error.injEq] at h
    exact Or.inr h.symm
  | cons b rest ih =>
    intro shift acc e h
    simp only [ulebCore] at h
    by_cases hov : 2 ^ 64 ≤ acc + b % 128 * 2 ^ shift
    · rw [if_pos hov] at h
      simp only [Except.error.injEq] at h
      exact Or.inl h.symm
    · rw [if_neg hov] at h
      by_cases hterm : b % 256 < 128
      · rw [if_pos hterm] at h
        exact absurd h (by simp)
      · rw [if_neg hterm] at h
        exact ih _ _ _ h

/-- C4 (amended): unsigned LEB128 decoding fails with `Overflow` exactly
when the accumulated value would exceed 64 bits at some byte the loop
examines; it fails with `TruncatedData` exactly when every available byte
has the continuation bit set and no overflow occurs first (`Overflow`
takes precedence when both conditions arise); in all other cases it
succeeds. -/
theorem uleb_error_characterization (bs : List Nat) :
    (ulebDecode bs = .error .Overflow ↔ UOverflow bs) ∧
    (ulebDecode bs = .error .TruncatedData ↔ AllCont bs ∧ ¬ UOverflow bs) ∧
    ((∃ v rest, ulebDecode bs = .ok (v, rest)) ↔
      ¬ AllCont bs ∧ ¬ UOverflow bs) := by
  have h1 : ulebDecode bs = .error .Overflow ↔ UOverflow bs :=
    ulebCore_overflow_iff bs 0 0
  have h2 : ulebDecode bs = .error .TruncatedData ↔
      AllCont bs ∧ ¬ UOverflow bs :=
    ulebCore_truncated_iff bs 0 0
  refine ⟨h1, h2, ?_, ?_⟩
  · rintro ⟨v, rest, hok⟩
    have hnov : ¬ UOverflow bs := by
      intro hov
      rw [h1.mpr hov] at hok
      exact absurd hok (by simp)
    refine ⟨fun hall => ?_, hnov⟩
    rw [h2.mpr ⟨hall, hnov⟩] at hok
    exact absurd hok (by simp)
  · rintro ⟨hnall, hnov⟩
    rcases hres : ulebDecode bs with e | ⟨v, rest⟩
    · rcases ulebCore_error_cases bs 0 0 e hres with rfl | rfl
      · exact absurd (h1.mp hres) hnov
      · exact absurd (h2.mp hres).1 hnall
    · exact ⟨v, rest, rfl⟩

/-- C4 counterexample: on ten `0xFF` bytes the continuation bit is set on
the last available byte, yet decoding reports `Overflow`, not
`TruncatedData` — the two "exactly when" conditions of the claim cannot
both hold of one result. -/
theorem uleb_truncation_precedence_counterexample :
    AllCont (List.replicate 10 255) ∧
    128 ≤ (List.replicate 10 255).getD 9 0 % 256 ∧
    ulebDecode (List.replicate 10 255) = .error .Overflow ∧
    DwarfError.Overflow ≠ DwarfError.TruncatedData := by
  refine ⟨?_, by decide, by decide, by decide⟩
  intro b hb
  rw [List.eq_of_mem_replicate hb]
  norm_num

/-- A successful unsigned LEB128 decode consumes at least one byte. -/
theorem ulebCore_rest_length_lt :
    ∀ (bs : List Nat) (shift acc v : Nat) (rest : List Nat),
      ulebCore bs shift acc = .ok (v, rest) → rest.length < bs.length := by
  intro bs
  induction bs with
  | nil => intro shift acc v rest h; simp [ulebCore] at h
  | cons b bs' ih =>
    intro shift acc v rest h
    simp only [ulebCore] at h
    by_cases h1 : 2 ^ 64 ≤ acc + b % 128 * 2 ^ shift
    · rw [if_pos h1] at h; exact absurd h (by simp)
    · rw [if_neg h1] at h
      by_cases h2 : b % 256 < 128
      · rw [if_pos h2] at h
        rw [Except.ok.injEq, Prod.mk.injEq] at h
        obtain ⟨h3, h4⟩ := h
        subst h4
        simp
      · rw [if_neg h2] at h
        have := ih _ _ _ _ h
        simp only [List.length_cons]
        omega

/-- A successful signed LEB128 decode consumes at least one byte. -/
theorem slebCore_rest_length_lt :
    ∀ (bs : List Nat) (shift acc : Nat) (v : Int) (rest : List Nat),
      slebCore bs shift acc = .ok (v, rest) → rest.length < bs.length := by
  intro bs
  induction bs with
  | nil => intro shift acc v rest h; simp [slebCore] at h
  | cons b bs' ih =>
    intro shift acc v rest h
    simp only [slebCore] at h
    by_cases h1 : 64 ≤ shift
    · rw [if_pos h1] at h; exact absurd h (by simp)
    · rw [if_neg h1] at h
      by_cases h2 : b % 256 < 128
      · rw [if_pos h2] at h
        by_cases h3 : b % 128 < 64
        · rw [if_pos h3] at h
          split at h
          · exact absurd h (by simp)
          · rw [Except.ok.injEq, Prod.mk.injEq] at h
            obtain ⟨h4, h5⟩ := h
            subst h5
            simp
        · rw [if_neg h3] at h
          split at h
          · exact absurd h (by simp)
          · rw [Except.ok.injEq, Prod.mk.injEq] at h
            obtain ⟨h4, h5⟩ := h
            subst h5
            simp
      · rw [if_neg h2] at h
        have := ih _ _ _ _ h
        simp only [List.length_cons]
        omega

/-- A null-terminated read consumes at least the terminator and at most
the remaining bytes. -/
theorem takeUntilNull_consumed :
    ∀ (l : List Nat) (s : List Nat) (k : Nat),
      takeUntilNull l = some (s, k) → 1 ≤ k ∧ k ≤ l.length := by
  intro l
  induction l with
  | nil => intro s k h; simp [takeUntilNull] at h
  | cons b rest ih =>
    intro s k h
    simp only [takeUntilNull] at h
    split_ifs at h with h0
    · rw [Option.some.injEq, Prod.mk.injEq] at h
      obtain ⟨_, hk⟩ := h
      simp only [List.length_cons]
      omega
    · cases hr : takeUntilNull rest with
      | none => rw [hr] at h; simp at h
      | some p =>
        obtain ⟨s', k'⟩ := p
        rw [hr] at h
        rw [Option.some.injEq, Prod.mk.injEq] at h
        obtain ⟨h1, h2⟩ := h
        have := ih s' k' hr
        simp only [List.length_cons]
        omega

/-- An unsigned LEB128 read at a position advances the position and stays
inside the range. -/
theorem readUlebAt_advances (data : List Nat) (pos v pos' : Nat)
    (h : readUlebAt data pos = .ok (v, pos')) :
    pos < pos' ∧ pos' ≤ data.length := by
  simp only [readUlebAt] at h
  cases hd : ulebDecode (data.drop pos) with
  | error e => rw [hd] at h; exact absurd h (by simp)
  | ok p =>
    obtain ⟨w, rest⟩ := p
    rw [hd] at h
    rw [Except.ok.injEq, Prod.mk.injEq] at h
    obtain ⟨h1, h2⟩ := h
    have hlt := ulebCore_rest_length_lt _ _ _ _ _ hd
    have hdrop : (data.drop pos).length = data.length - pos :=
      List.length_drop pos data
    omega

/-- A signed LEB128 read at a position advances the position and stays
inside the range. -/
theorem readSlebAt_advances (data : List Nat) (pos : Nat) (v : Int)
    (pos' : Nat) (h : readSlebAt data pos = .ok (v, pos')) :
    pos < pos' ∧ pos' ≤ data.length := by
  simp only [readSlebAt] at h
  cases hd : slebDecode (data.drop pos) with
  | error e => rw [hd] at h; exact absurd h (by simp)
  | ok p =>
    obtain ⟨w, rest⟩ := p
    rw [hd] at h
    rw [Except.ok.injEq, Prod.mk.injEq] at h
    obtain ⟨h1, h2⟩ := h
    have hlt := slebCore_rest_length_lt _ _ _ _ _ hd
    have hdrop : (data.drop pos).length = data.length - pos :=
      List.length_drop pos data
    omega

/-- A null-terminated read finds no terminator exactly when no remaining
byte is zero. -/
theorem takeUntilNull_none_iff :
    ∀ l : List Nat, takeUntilNull l = none ↔ ∀ b ∈ l, b % 256 ≠ 0 := by
  intro l
  induction l with
  | nil => simp [takeUntilNull]
  | cons b rest ih =>
    simp only [takeUntilNull]
    split_ifs with h0
    · constructor
      · intro hcon; exact absurd hcon (by simp)
      · intro hall; exact absurd h0 (hall b (by simp))
    · cases hr : takeUntilNull rest with
      | none =>
        constructor
        · intro _ x hx
          rcases List.mem_cons.mp hx with rfl | hx'
          · exact h0
          · exact (ih.mp hr) x hx'
        · intro _; rfl
      | some p =>
        obtain ⟨s, k⟩ := p
        constructor
        · intro hcon; exact absurd hcon (by simp)
        · intro hall
          have hnone : takeUntilNull rest = none :=
            ih.mpr (fun x hx => hall x (List.mem_cons_of_mem b hx))
          rw [hr] at hnone
          exact absurd hnone (by simp)

/-- The signed LEB128 loop reports `TruncatedData` exactly when every
available byte carries the continuation bit and every byte it would
examine sits below bit 64. -/
theorem slebCore_truncated_iff :
    ∀ (bs : List Nat) (shift acc : Nat),
      slebCore bs shift acc = .error .TruncatedData ↔
        AllCont bs ∧ ∀ i, i < bs.length → shift + 7 * i < 64 := by
  intro bs
  induction bs with
  | nil =>
    intro shift acc
    simp [slebCore, AllCont]
  | cons b rest ih =>
    intro shift acc
    simp only [slebCore]
    by_cases h1 : 64 ≤ shift
    · rw [if_pos h1]
      constructor
      · intro hcon; exact absurd hcon (by simp)
      · rintro ⟨_, hidx⟩
        have := hidx 0 (by simp)
        omega
    · rw [if_neg h1]
      by_cases h2 : b % 256 < 128
      · rw [if_pos h2]
        constructor
        · intro hcon
          split at hcon
          · split at hcon
            · exact absurd hcon (by simp)
            · exact absurd hcon (by simp)
          · split at hcon
            · exact absurd hcon (by simp)
            · exact absurd hcon (by simp)
        · rintro ⟨hall, _⟩
          have := hall b (by simp)
          omega
      · rw [if_neg h2]
        rw [ih (shift + 7) (acc + b % 128 * 2 ^ shift)]
        constructor
        · rintro ⟨hall, hidx⟩
          refine ⟨?_, ?_⟩
          · intro x hx
            rcases List.mem_cons.mp hx with rfl | hx'
            · omega
            · exact hall x hx'
          · intro i hi
            cases i with
            | zero => omega
            | succ j =>
              simp only [List.length_cons] at hi
              have := hidx j (by omega)
              omega
        · rintro ⟨hall, hidx⟩
          refine ⟨fun x hx => hall x (List.mem_cons_of_mem b hx), ?_⟩
          intro i hi
          have := hidx (i + 1) (by simp only [List.length_cons]; omega)
          omega

/-- `lebU` passes the unsigned decoder's error through unchanged. -/
theorem lebU_error_iff (c : ByteCursor) (e : DwarfError) :
    c.lebU = .error e ↔ ulebDecode (c.data.drop c.pos) = .error e := by
  simp only [ByteCursor.lebU, readUlebAt]
  cases hd : ulebDecode (c.data.drop c.pos) with
  | error e' => simp
  | ok p =>
    obtain ⟨v, rest⟩ := p
    simp

/-- `lebS` passes the signed decoder's error through unchanged. -/
theorem lebS_error_iff (c : ByteCursor) (e : DwarfError) :
    c.lebS = .error e ↔ slebDecode (c.data.drop c.pos) = .error e := by
  simp only [ByteCursor.lebS, readSlebAt]
  cases hd : slebDecode (c.data.drop c.pos) with
  | error e' => simp
  | ok p =>
    obtain ⟨v, rest⟩ := p
    simp

/-- `null_terminated_string` fails (with `TruncatedData`) exactly when no
terminator remains. -/
theorem nullTerminatedString_error_iff (c : ByteCursor) :
    c.nullTerminatedString = .error .TruncatedData ↔
      takeUntilNull (c.data.drop c.pos) = none := by
  simp only [ByteCursor.nullTerminatedString]
  cases ht : takeUntilNull (c.data.drop c.pos) with
  | none => simp
  | some p =>
    obtain ⟨s, k⟩ := p
    simp

/-- C5: every ByteCursor read operation advances the position past the
bytes it consumed and stays inside the wrapped range, or fails with
`TruncatedData` when insufficient bytes remain — for the fixed-width
reads when fewer than `n` bytes are left, for the LEB128 reads when the
available bytes end with the continuation bit still set, and for
`null_terminated_string` when no terminator remains; seeking to an
absolute offset fails with `OutOfRange` exactly when the target lies
outside the section. -/
theorem bytecursor_reads_safe (c : ByteCursor) (n off : Nat)
    (hpos : c.pos ≤ c.data.length) :
    (∀ bs c', c.readBytes n = .ok (bs, c') →
      c'.pos = c.pos + n ∧ c'.pos ≤ c.data.length ∧ c'.data = c.data ∧
      bs = (c.data.drop c.pos).take n) ∧
    (c.readBytes n = .error .TruncatedData ↔ c.data.length < c.pos + n) ∧
    (∀ v c', c.readScalar n = .ok (v, c') →
      c'.pos = c.pos + n ∧ c'.pos ≤ c.data.length ∧ c'.data = c.data ∧
      v = scalarOfBytes c.order ((c.data.drop c.pos).take n)) ∧
    (c.readScalar n = .error .TruncatedData ↔ c.data.length < c.pos + n) ∧
    (∀ v c', c.lebU = .ok (v, c') →
      c.pos < c'.pos ∧ c'.pos ≤ c.data.length ∧ c'.data = c.data) ∧
    (c.lebU = .error .TruncatedData ↔
      AllCont (c.data.drop c.pos) ∧ ¬ UOverflow (c.data.drop c.pos)) ∧
    (∀ v c', c.lebS = .ok (v, c') →
      c.pos < c'.pos ∧ c'.pos ≤ c.data.length ∧ c'.data = c.data) ∧
    (c.lebS = .error .TruncatedData ↔
      AllCont (c.data.drop c.pos) ∧ (c.data.drop c.pos).length ≤ 10) ∧
    (∀ s c', c.nullTerminatedString = .ok (s, c') →
      c.pos < c'.pos ∧ c'.pos ≤ c.data.length ∧ c'.data = c.data) ∧
    (c.nullTerminatedString = .error .TruncatedData ↔
      ∀ b ∈ c.data.drop c.pos, b % 256 ≠ 0) ∧
    ((∃ c', c.seek off = .ok c') ↔ off ≤ c.data.length) ∧
    (c.seek off = .error .OutOfRange ↔ c.data.length < off) := by
  refine ⟨?_, ?_, ?_, ?_, ?_, ?_, ?_, ?_, ?_, ?_, ?_, ?_⟩
  · intro bs c' h
    simp only [ByteCursor.readBytes] at h
    split_ifs at h with hle
    · rw [Except.ok.injEq, Prod.mk.injEq] at h
      obtain ⟨h1, h2⟩ := h
      subst h2
      exact ⟨rfl, hle, rfl, h1.symm⟩
  · simp only [ByteCursor.readBytes]
    split_ifs with hle
    · constructor
      · intro hcon; exact absurd hcon (by simp)
      · intro hcon; omega
    · constructor
      · intro _; omega
      · intro _; rfl
  · intro v c' h
    simp only [ByteCursor.readScalar, ByteCursor.readBytes] at h
    split_ifs at h with hle
    · rw [Except.ok.injEq, Prod.mk.injEq] at h
      obtain ⟨h1, h2⟩ := h
      subst h2
      exact ⟨rfl, hle, rfl, h1.symm⟩
  · simp only [ByteCursor.readScalar, ByteCursor.readBytes]
    split_ifs with hle
    · constructor
      · intro hcon; exact absurd hcon (by simp)
      · intro hcon; omega
    · constructor
      · intro _; omega
      · intro _; rfl
  · intro v c' h
    simp only [ByteCursor.lebU] at h
    cases hr : readUlebAt c.data c.pos with
    | error e => rw [hr] at h; exact absurd h (by simp)
    | ok p =>
      obtain ⟨w, pos'⟩ := p
      rw [hr] at h
      rw [Except.ok.injEq, Prod.mk.injEq] at h
      obtain ⟨h1, h2⟩ := h
      subst h2
      have := readUlebAt_advances c.data c.pos w pos' hr
      exact ⟨this.1, this.2, rfl⟩
  · rw [lebU_error_iff]
    exact ulebCore_truncated_iff (c.data.drop c.pos) 0 0
  · intro v c' h
    simp only [ByteCursor.lebS] at h
    cases hr : readSlebAt c.data c.pos with
    | error e => rw [hr] at h; exact absurd h (by simp)
    | ok p =>
      obtain ⟨w, pos'⟩ := p
      rw [hr] at h
      rw [Except.ok.injEq, Prod.mk.injEq] at h
      obtain ⟨h1, h2⟩ := h
      subst h2
      have := readSlebAt_advances c.data c.pos w pos' hr
      exact ⟨this.1, this.2, rfl⟩
  · rw [lebS_error_iff]
    have hiff := slebCore_truncated_iff (c.data.drop c.pos) 0 0
    constructor
    · intro hx
      obtain ⟨hall, hidx⟩ := hiff.mp hx
      refine ⟨hall, ?_⟩
      by_contra hL
      push_neg at hL
      have := hidx 10 (by omega)
      omega
    · rintro ⟨hall, hL⟩
      exact hiff.mpr ⟨hall, fun i hi => by omega⟩
  · intro s c' h
    simp only [ByteCursor.nullTerminatedString] at h
    cases hr : takeUntilNull (c.data.drop c.pos) with
    | none => rw [hr] at h; exact absurd h (by simp)
    | some p =>
      obtain ⟨s', k⟩ := p
      rw [hr] at h
      rw [Except.ok.injEq, Prod.mk.injEq] at h
      obtain ⟨h1, h2⟩ := h
      subst h2
      have hk := takeUntilNull_consumed _ s' k hr
      have hdrop : (c.data.drop c.pos).length = c.data.length - c.pos :=
        List.length_drop c.pos c.data
      refine ⟨?_, ?_, rfl⟩
      · show c.pos < c.pos + k
        omega
      · show c.pos + k ≤ c.data.length
        omega
  · rw [nullTerminatedString_error_iff]
    exact takeUntilNull_none_iff (c.data.drop c.pos)
  · simp only [ByteCursor.seek]
    split_ifs with hle
    · exact ⟨fun _ => hle, fun _ => ⟨_, rfl⟩⟩
    · constructor
      · rintro ⟨c', hc'⟩; exact absurd hc' (by simp)
      · intro hcon; exact absurd hcon hle
  · simp only [ByteCursor.seek]
    split_ifs with hle
    · constructor
      · intro hcon; exact absurd hcon (by simp)
      · intro hcon; omega
    · constructor
      · intro _; omega
      · intro _; rfl

/-- Witness for C5 on a concrete five-byte cursor with `n = 2`,
`off = 4`. -/
theorem bytecursor_reads_safe_witness :
    sampleCursor.pos ≤ sampleCursor.data.length ∧
    ((∀ bs c', sampleCursor.readBytes 2 = .ok (bs, c') →
      c'.pos = sampleCursor.pos + 2 ∧ c'.pos ≤ sampleCursor.data.length ∧
      c'.data = sampleCursor.data ∧
      bs = (sampleCursor.data.drop sampleCursor.pos).take 2) ∧
    (sampleCursor.readBytes 2 = .error .TruncatedData ↔
      sampleCursor.data.length < sampleCursor.pos + 2) ∧
    (∀ v c', sampleCursor.readScalar 2 = .ok (v, c') →
      c'.pos = sampleCursor.pos + 2 ∧ c'.pos ≤ sampleCursor.data.length ∧
      c'.data = sampleCursor.data ∧
      v = scalarOfBytes sampleCursor.order
        ((sampleCursor.data.drop sampleCursor.pos).take 2)) ∧
    (sampleCursor.readScalar 2 = .error .TruncatedData ↔
      sampleCursor.data.length < sampleCursor.pos + 2) ∧
    (∀ v c', sampleCursor.lebU = .ok (v, c') →
      sampleCursor.pos < c'.pos ∧ c'.pos ≤ sampleCursor.data.length ∧
      c'.data = sampleCursor.data) ∧
    (sampleCursor.lebU = .error .TruncatedData ↔
      AllCont (sampleCursor.data.drop sampleCursor.pos) ∧
      ¬ UOverflow (sampleCursor.data.drop sampleCursor.pos)) ∧
    (∀ v c', sampleCursor.lebS = .ok (v, c') →
      sampleCursor.pos < c'.pos ∧ c'.pos ≤ sampleCursor.data.length ∧
      c'.data = sampleCursor.data) ∧
    (sampleCursor.lebS = .error .TruncatedData ↔
      AllCont (sampleCursor.data.drop sampleCursor.pos) ∧
      (sampleCursor.data.drop sampleCursor.pos).length ≤ 10) ∧
    (∀ s c', sampleCursor.nullTerminatedString = .ok (s, c') →
      sampleCursor.pos < c'.pos ∧ c'.pos ≤ sampleCursor.data.length ∧
      c'.data = sampleCursor.data) ∧
    (sampleCursor.nullTerminatedString = .error .TruncatedData ↔
      ∀ b ∈ sampleCursor.data.drop sampleCursor.pos, b % 256 ≠ 0) ∧
    ((∃ c', sampleCursor.seek 4 = .ok c') ↔ 4 ≤ sampleCursor.data.length) ∧
    (sampleCursor.seek 4 = .error .OutOfRange ↔
      sampleCursor.data.length < 4)) :=
  ⟨by decide, bytecursor_reads_safe sampleCursor 2 4 (by decide)⟩

/-- C8: after including `config.h`, `WORDS_BIGENDIAN` is defined (to 1)
if and only if the compiler predefines `__BIG_ENDIAN__`; on every other
platform it is left undefined. -/
theorem words_bigendian_iff (e : CompilerEnv) :
    (WORDS_BIGENDIAN e = some 1 ↔ e.bigEndianPredefined = true) ∧
    (WORDS_BIGENDIAN e = none ↔ e.bigEndianPredefined = false) := by
  cases hb : e.bigEndianPredefined <;> simp [WORDS_BIGENDIAN, hb]

/-- C9: after including `config.h`, none of the compression-backend
macros is defined, regardless of the compiler environment. -/
theorem compression_backends_disabled (e : CompilerEnv) :
    HAVE_ZLIB e = none ∧ HAVE_ZLIB_H e = none ∧
    HAVE_ZSTD e = none ∧ HAVE_ZSTD_H e = none :=
  ⟨rfl, rfl, rfl, rfl⟩

/-- C10: `PACKAGE_STRING` expands to the concatenation of `PACKAGE`, a
space, and `PACKAGE_VERSION`, i.e. to `"libdwarf 0.0.0"`. -/
theorem package_string_expansion :
    PACKAGE_STRING = PACKAGE ++ " " ++ PACKAGE_VERSION ∧
    PACKAGE_STRING = "libdwarf 0.0.0" :=
  ⟨rfl, by decide⟩

/-- Expression evaluation is fuel-independent once the fuel exceeds the
number of remaining bytes: each step consumes at least one byte. -/
theorem evalSteps_fuel_indep (ctx : EvalContext) :
    ∀ (n : Nat) (bs : List Nat) (f1 f2 : Nat) (stack : List Nat)
      (pending : Option Location),
      bs.length ≤ n → bs.length < f1 → bs.length < f2 →
      evalSteps ctx f1 bs stack pending = evalSteps ctx f2 bs stack pending := by
  intro n
  induction n with
  | zero =>
    intro bs f1 f2 stack pending hn h1 h2
    have hbs : bs = [] := List.length_eq_zero.mp (Nat.le_zero.mp hn)
    subst hbs
    cases f1 with
    | zero => omega
    | succ f1' =>
      cases f2 with
      | zero => omega
      | succ f2' => simp [evalSteps]
  | succ n ih =>
    intro bs f1 f2 stack pending hn h1 h2
    cases bs with
    | nil =>
      cases f1 with
      | zero => simp at h1
      | succ f1' =>
        cases f2 with
        | zero => simp at h2
        | succ f2' => simp [evalSteps]
    | cons op rest =>
      cases f1 with
      | zero => simp at h1
      | succ f1' =>
        cases f2 with
        | zero => simp at h2
        | succ f2' =>
          simp only [List.length_cons] at hn h1 h2
          simp only [evalSteps]
          by_cases hlit : 0x30 ≤ op ∧ op ≤ 0x4f
          · rw [if_pos hlit, if_pos hlit]
            exact ih rest f1' f2' _ _ (by omega) (by omega) (by omega)
          · rw [if_neg hlit, if_neg hlit]
            by_cases hplus : op = 0x22
            · rw [if_pos hplus, if_pos hplus]
              cases stack with
              | nil => rfl
              | cons a s1 =>
                cases s1 with
                | nil => rfl
                | cons b s =>
                  exact ih rest f1' f2' _ _ (by omega) (by omega) (by omega)
            · rw [if_neg hplus, if_neg hplus]
              by_cases hfb : op = 0x91
              · rw [if_pos hfb, if_pos hfb]
                cases hsd : slebDecode rest with
                | error e => rfl
                | ok p =>
                  obtain ⟨off, rest'⟩ := p
                  have hlt := slebCore_rest_length_lt _ _ _ _ _ hsd
                  exact ih rest' f1' f2' _ _ (by omega) (by omega) (by omega)
              · rw [if_neg hfb, if_neg hfb]

/-- C7: expression evaluation is deterministic — the result does not
depend on the fuel once it exceeds the byte count, so any two runs on the
same bytes and context agree — and terminates, agreeing with the
canonical run; an empty expression yields "no location", not an error;
and the spec's `[0x91, 0x02]` example yields a frame-base-relative
location with offset 2. -/
theorem expression_eval_deterministic_terminates (ctx : EvalContext)
    (bs : List Nat) (f1 f2 : Nat) (h1 : bs.length < f1)
    (h2 : bs.length < f2) :
    evalSteps ctx f1 bs [] none = evalSteps ctx f2 bs [] none ∧
    evalSteps ctx f1 bs [] none = evalExpr ctx bs ∧
    evalExpr ctx [] = .ok .noLocation ∧
    evalExpr ctx [0x91, 0x02] = .ok (.frameBaseRelative 2) :=
  ⟨evalSteps_fuel_indep ctx bs.length bs f1 f2 [] none le_rfl h1 h2,
    evalSteps_fuel_indep ctx bs.length bs f1 (bs.length + 1) [] none le_rfl h1
      (by omega),
    rfl, rfl⟩

/-- Witness for C7 at the spec's `DW_OP_fbreg` example with fuels 3 and
17. -/
theorem expression_eval_deterministic_terminates_witness :
    ([0x91, 0x02] : List Nat).length < 3 ∧
    ([0x91, 0x02] : List Nat).length < 17 ∧
    (evalSteps ⟨0⟩ 3 [0x91, 0x02] [] none
        = evalSteps ⟨0⟩ 17 [0x91, 0x02] [] none ∧
      evalSteps ⟨0⟩ 3 [0x91, 0x02] [] none = evalExpr ⟨0⟩ [0x91, 0x02] ∧
      evalExpr ⟨0⟩ [] = .ok .noLocation ∧
      evalExpr ⟨0⟩ [0x91, 0x02] = .ok (.frameBaseRelative 2)) :=
  ⟨by decide, by decide,
    expression_eval_deterministic_terminates ⟨0⟩ [0x91, 0x02] 3 17
      (by decide) (by decide)⟩

/-- C6: with `line_base = -5`, `line_range = 14`,
`minimum_instruction_length = 1`, every special opcode appends one row
whose address and line deltas follow the documented linear formula
(`address += (op - opcode_base) / line_range`,
`line += line_base + (op - opcode_base) % line_range`), leaving the other
registers unchanged; and `end_sequence` appends a final row flagged
`end_sequence` and resets the registers to the header defaults for the
next sequence. -/
theorem line_special_and_end_sequence (h : LineHeader) (st : LineState)
    (op : Nat) (hbase : h.lineBase = -5) (hrange : h.lineRange = 14)
    (hmin : h.minimumInstructionLength = 1) (hop0 : 0 < h.opcodeBase)
    (hop : h.opcodeBase ≤ op) :
    (∃ r : LineRegs,
      runLineProgram h [op] st = .ok ⟨r, st.rows ++ [r]⟩ ∧
      r.address = st.regs.address + (op - h.opcodeBase) / 14 ∧
      r.line = st.regs.line - 5 + ((op - h.opcodeBase) % 14 : Nat) ∧
      r.file = st.regs.file ∧ r.column = st.regs.column ∧
      r.isStmt = st.regs.isStmt ∧ r.endSequence = st.regs.endSequence) ∧
    runLineProgram h [0, 1, 1] st =
      .ok ⟨initialRegs h, st.rows ++ [{ st.regs with endSequence := true }]⟩ := by
  constructor
  · refine ⟨{ st.regs with
        address := st.regs.address
          + (op - h.opcodeBase) / h.lineRange * h.minimumInstructionLength,
        line := st.regs.line + h.lineBase
          + (((op - h.opcodeBase) % h.lineRange : Nat) : Int),
        basicBlock := false }, ?_, ?_, ?_, ?_, ?_, ?_, ?_⟩
    · show runLineFuel h 2 [op] st = _
      simp only [runLineFuel]
      rw [if_neg (by omega), if_neg (by omega)]
    · simp [hrange, hmin]
    · simp only [hbase, hrange]
      omega
    · rfl
    · rfl
    · rfl
    · rfl
  · rfl

/-- Witness for C6 with the spec's header, a fresh state, and the special
opcode 45. -/
theorem line_special_and_end_sequence_witness :
    sampleLineHeader.lineBase = -5 ∧ sampleLineHeader.lineRange = 14 ∧
    sampleLineHeader.minimumInstructionLength = 1 ∧
    0 < sampleLineHeader.opcodeBase ∧ sampleLineHeader.opcodeBase ≤ 45 ∧
    ((∃ r : LineRegs,
      runLineProgram sampleLineHeader [45] sampleLineState =
        .ok ⟨r, sampleLineState.rows ++ [r]⟩ ∧
      r.address = sampleLineState.regs.address
        + (45 - sampleLineHeader.opcodeBase) / 14 ∧
      r.line = sampleLineState.regs.line - 5
        + ((45 - sampleLineHeader.opcodeBase) % 14 : Nat) ∧
      r.file = sampleLineState.regs.file ∧
      r.column = sampleLineState.regs.column ∧
      r.isStmt = sampleLineState.regs.isStmt ∧
      r.endSequence = sampleLineState.regs.endSequence) ∧
    runLineProgram sampleLineHeader [0, 1, 1] sampleLineState =
      .ok ⟨initialRegs sampleLineHeader,
        sampleLineState.rows ++
          [{ sampleLineState.regs with endSequence := true }]⟩) :=
  ⟨rfl, rfl, rfl, by decide, by decide,
    line_special_and_end_sequence sampleLineHeader sampleLineState 45
      rfl rfl rfl (by decide) (by decide)⟩

/-- The fuelled section driver maps unit parsing over the per-unit byte
extents: each unit's result is a function of its own slice alone. -/
theorem parseSectionFuel_eq_map (tbl : List (Nat × AbbrevDecl)) :
    ∀ (fuel : Nat) (data : List Nat) (off : Nat),
      parseSectionFuel tbl fuel data off =
        (unitBlocksFuel fuel data off).map
          (fun p => (p.1,
            match p.2 with
            | some b => parseUnitBlock tbl b
            | none => .error .TruncatedData)) := by
  intro fuel
  induction fuel with
  | zero => intro data off; simp [parseSectionFuel, unitBlocksFuel]
  | succ fuel ih =>
    intro data off
    simp only [parseSectionFuel, unitBlocksFuel]
    by_cases h0 : data = []
    · rw [if_pos h0, if_pos h0]; simp
    · rw [if_neg h0, if_neg h0]
      by_cases h4 : data.length < 4
      · rw [if_pos h4, if_pos h4]; simp
      · rw [if_neg h4, if_neg h4]
        by_cases hfit : data.length < 4 + leBytesVal (data.take 4)
        · rw [if_pos hfit, if_pos hfit]; simp
        · rw [if_neg hfit, if_neg hfit]
          simp [ih]

/-- C2: the section driver records one result per unit, each computed
from that unit's own byte extent alone — so a corrupt unit fails alone
and cannot affect any other unit — and on the concrete two-unit section
whose first unit's declared length is understated by 4 bytes, the driver
reports `TruncatedData` for that unit and still parses the following
well-formed unit. -/
theorem section_driver_per_unit_report (tbl : List (Nat × AbbrevDecl))
    (data : List Nat) (off : Nat) :
    (parseSection tbl data off =
      (unitBlocks data off).map
        (fun p => (p.1,
          match p.2 with
          | some b => parseUnitBlock tbl b
          | none => .error .TruncatedData))) ∧
    parseUnitBlock sampleAbbrevs corruptUnitBlock = .error .TruncatedData ∧
    parseSection sampleAbbrevs sampleSection 0 =
      [(0, .error .TruncatedData), (12, .ok sampleUnit)] ∧
    parseUnitBlock sampleAbbrevs sampleUnitBlock = .ok sampleUnit :=
  ⟨parseSectionFuel_eq_map tbl (data.length + 1) data off, rfl, rfl, rfl⟩

/-- A fixed-width read lands exactly `n` bytes further, inside the
range. -/
theorem readFixedAt_ok (data : List Nat) (pos n : Nat) (bs : List Nat)
    (p : Nat) (h : readFixedAt data pos n = .ok (bs, p)) :
    p = pos + n ∧ p ≤ data.length := by
  simp only [readFixedAt] at h
  split_ifs at h with hle
  rw [Except.ok.injEq, Prod.mk.injEq] at h
  obtain ⟨_, h2⟩ := h
  omega

/-- A successful form read never moves backwards and stays inside the
range. -/
theorem decodeForm_pos_le (addrSize : Nat) (data : List Nat)
    (pos form : Nat) (v : FormValue) (pos' : Nat)
    (hpos : pos ≤ data.length)
    (h : decodeForm addrSize data pos form = .ok (v, pos')) :
    pos ≤ pos' ∧ pos' ≤ data.length := by
  simp only [decodeForm] at h
  split_ifs at h with h1 h2 h3 h4 h5 h6 h7 h8 h9
  · cases hr : readFixedAt data pos 1 with
    | error e => rw [hr] at h; exact absurd h (by simp)
    | ok q =>
      obtain ⟨bs0, p0⟩ := q
      rw [hr] at h
      rw [Except.ok.injEq, Prod.mk.injEq] at h
      have := readFixedAt_ok data pos 1 bs0 p0 hr
      omega
  · cases hr : readFixedAt data pos 2 with
    | error e => rw [hr] at h; exact absurd h (by simp)
    | ok q =>
      obtain ⟨bs0, p0⟩ := q
      rw [hr] at h
      rw [Except.ok.injEq, Prod.mk.injEq] at h
      have := readFixedAt_ok data pos 2 bs0 p0 hr
      omega
  · cases hr : readFixedAt data pos 4 with
    | error e => rw [hr] at h; exact absurd h (by simp)
    | ok q =>
      obtain ⟨bs0, p0⟩ := q
      rw [hr] at h
      rw [Except.ok.injEq, Prod.mk.injEq] at h
      have := readFixedAt_ok data pos 4 bs0 p0 hr
      omega
  · cases hr : readFixedAt data pos 8 with
    | error e => rw [hr] at h; exact absurd h (by simp)
    | ok q =>
      obtain ⟨bs0, p0⟩ := q
      rw [hr] at h
      rw [Except.ok.injEq, Prod.mk.injEq] at h
      have := readFixedAt_ok data pos 8 bs0 p0 hr
      omega
  · cases hr : readFixedAt data pos addrSize with
    | error e => rw [hr] at h; exact absurd h (by simp)
    | ok q =>
      obtain ⟨bs0, p0⟩ := q
      rw [hr] at h
      rw [Except.ok.injEq, Prod.mk.injEq] at h
      have := readFixedAt_ok data pos addrSize bs0 p0 hr
      omega
  · cases hr : readUlebAt data pos with
    | error e => rw [hr] at h; exact absurd h (by simp)
    | ok q =>
      obtain ⟨w, p0⟩ := q
      rw [hr] at h
      rw [Except.ok.injEq, Prod.mk.injEq] at h
      have := readUlebAt_advances data pos w p0 hr
      omega
  · cases hr : readSlebAt data pos with
    | error e => rw [hr] at h; exact absurd h (by simp)
    | ok q =>
      obtain ⟨w, p0⟩ := q
      rw [hr] at h
      rw [Except.ok.injEq, Prod.mk.injEq] at h
      have := readSlebAt_advances data pos w p0 hr
      omega
  · cases hr : takeUntilNull (data.drop pos) with
    | none => rw [hr] at h; exact absurd h (by simp)
    | some q =>
      obtain ⟨s0, k⟩ := q
      rw [hr] at h
      rw [Except.ok.injEq, Prod.mk.injEq] at h
      have hk := takeUntilNull_consumed _ s0 k hr
      have hdrop : (data.drop pos).length = data.length - pos :=
        List.length_drop pos data
      omega
  · rw [Except.ok.injEq, Prod.mk.injEq] at h
    omega

/-- Decoding a declaration's attribute list never moves backwards and
stays inside the range. -/
theorem decodeAttrs_pos_le (addrSize : Nat) (data : List Nat) :
    ∀ (forms : List (Nat × Nat)) (pos : Nat)
      (attrs : List (Nat × FormValue)) (pos' : Nat),
      pos ≤ data.length →
      decodeAttrs addrSize data forms pos = .ok (attrs, pos') →
      pos ≤ pos' ∧ pos' ≤ data.length := by
  intro forms
  induction forms with
  | nil =>
    intro pos attrs pos' hpos h
    simp only [decodeAttrs] at h
    rw [Except.ok.injEq, Prod.mk.injEq] at h
    omega
  | cons af rest ih =>
    intro pos attrs pos' hpos h
    obtain ⟨attr, form⟩ := af
    simp only [decodeAttrs] at h
    split at h
    next v p1 hf =>
      have h1 := decodeForm_pos_le addrSize data pos form v p1 hpos hf
      split at h
      next vs p2 hr =>
        rw [Except.ok.injEq, Prod.mk.injEq] at h
        have h2 := ih p1 vs p2 h1.2 hr
        omega
      next e hr => exact absurd h (by simp)
    next e hf => exact absurd h (by simp)

/-- Structural invariants of DIE parsing, for any fuel: a parsed DIE sits
at the position it was read from, its pre-order offsets are strictly
increasing and confined to the consumed byte range, and every sub-DIE's
offset strictly precedes the offsets of all of its descendants. -/
theorem parse_tree_invariants (tbl : List (Nat × AbbrevDecl))
    (addrSize : Nat) (data : List Nat) (fuel : Nat) :
    (∀ pos od pos',
      parseDIE tbl addrSize data fuel pos = .ok (od, pos') →
      pos < pos' ∧ pos' ≤ data.length ∧
      ∀ d, od = some d →
        d.offset = pos ∧ List.Sorted (· < ·) (preorder d) ∧
        (∀ o ∈ preorder d, pos ≤ o ∧ o < pos') ∧
        (∀ d' ∈ subDIEs d, pos ≤ d'.offset ∧ d'.offset < pos' ∧
          List.Sorted (· < ·) (preorder d') ∧
          ∀ e ∈ subDIEsList d'.children, d'.offset < e.offset)) ∧
    (∀ pos ds pos',
      parseChildren tbl addrSize data fuel pos = .ok (ds, pos') →
      pos < pos' ∧ pos' ≤ data.length ∧
      List.Sorted (· < ·) (preorderList ds) ∧
      (∀ o ∈ preorderList ds, pos ≤ o ∧ o < pos') ∧
      (∀ d' ∈ subDIEsList ds, pos ≤ d'.offset ∧ d'.offset < pos' ∧
        List.Sorted (· < ·) (preorder d') ∧
        ∀ e ∈ subDIEsList d'.children, d'.offset < e.offset)) := by
  induction fuel with
  | zero =>
    constructor
    · intro pos od pos' h
      simp [parseDIE] at h
    · intro pos ds pos' h
      simp [parseChildren] at h
  | succ fuel ih =>
    obtain ⟨ihD, ihC⟩ := ih
    constructor
    · intro pos od pos' h
      simp only [parseDIE] at h
      split at h
      next e hu => exact absurd h (by simp)
      next code p1 hu =>
        have hadv := readUlebAt_advances data pos code p1 hu
        by_cases hc0 : code = 0
        · rw [if_pos hc0] at h
          rw [Except.ok.injEq, Prod.mk.injEq] at h
          obtain ⟨hod, hp⟩ := h
          subst hp
          refine ⟨hadv.1, hadv.2, ?_⟩
          intro d hd
          rw [← hod] at hd
          exact absurd hd (by simp)
        · rw [if_neg hc0] at h
          split at h
          next hl => exact absurd h (by simp)
          next decl hl =>
            split at h
            next e ha => exact absurd h (by simp)
            next attrs p2 ha =>
              have hattrs := decodeAttrs_pos_le addrSize data decl.attrForms
                p1 attrs p2 hadv.2 ha
              by_cases hch : decl.hasChildren
              · rw [if_pos hch] at h
                split at h
                next e hk => exact absurd h (by simp)
                next kids p3 hk =>
                  rw [Except.ok.injEq, Prod.mk.injEq] at h
                  obtain ⟨hod, hp⟩ := h
                  subst hp
                  obtain ⟨hq1, hq2, hq3, hq4, hq5⟩ := ihC _ _ _ hk
                  refine ⟨by omega, hq2, ?_⟩
                  intro d hd
                  rw [← hod] at hd
                  rw [Option.some.injEq] at hd
                  subst hd
                  have hsorted : List.Sorted (· < ·)
                      (preorder (.node pos decl.tag attrs kids)) := by
                    simp only [preorder]
                    rw [List.sorted_cons]
                    exact ⟨fun y hy => by have := hq4 y hy; omega, hq3⟩
                  refine ⟨rfl, hsorted, ?_, ?_⟩
                  · intro o ho
                    simp only [preorder, List.mem_cons] at ho
                    rcases ho with rfl | ho
                    · omega
                    · have := hq4 o ho; omega
                  · intro d' hd'
                    simp only [subDIEs, List.mem_cons] at hd'
                    rcases hd' with rfl | hd'
                    · have hoffr : DIE.offset (.node pos decl.tag attrs kids)
                          = pos := rfl
                      have hchr : DIE.children (.node pos decl.tag attrs kids)
                          = kids := rfl
                      refine ⟨by rw [hoffr], by rw [hoffr]; omega, hsorted, ?_⟩
                      intro e he
                      rw [hchr] at he
                      have := (hq5 e he).1
                      rw [hoffr]
                      omega
                    · obtain ⟨hb1, hb2, hb3, hb4⟩ := hq5 d' hd'
                      exact ⟨by omega, by omega, hb3, hb4⟩
              · rw [if_neg hch] at h
                rw [Except.ok.injEq, Prod.mk.injEq] at h
                obtain ⟨hod, hp⟩ := h
                subst hp
                refine ⟨by omega, by omega, ?_⟩
                intro d hd
                rw [← hod] at hd
                rw [Option.some.injEq] at hd
                subst hd
                have hsorted : List.Sorted (· < ·)
                    (preorder (.node pos decl.tag attrs [])) := by
                  simp [preorder, preorderList]
                refine ⟨rfl, hsorted, ?_, ?_⟩
                · intro o ho
                  simp only [preorder, preorderList, List.mem_cons] at ho
                  rcases ho with rfl | ho
                  · omega
                  · simp at ho
                · intro d' hd'
                  simp only [subDIEs, subDIEsList, List.mem_cons] at hd'
                  rcases hd' with rfl | hd'
                  · have hoffr : DIE.offset (.node pos decl.tag attrs [])
                        = pos := rfl
                    have hchr : DIE.children (.node pos decl.tag attrs [])
                        = ([] : List DIE) := rfl
                    refine ⟨by rw [hoffr], by rw [hoffr]; omega, hsorted, ?_⟩
                    intro e he
                    rw [hchr] at he
                    simp [subDIEsList] at he
                  · exact absurd hd' (by simp)
    · intro pos ds pos' h
      simp only [parseChildren] at h
      split at h
      next e hd0 => exact absurd h (by simp)
      next p1 hd0 =>
        rw [Except.ok.injEq, Prod.mk.injEq] at h
        obtain ⟨hds, hp⟩ := h
        subst hp
        obtain ⟨hp1, hp2, _⟩ := ihD pos none p1 hd0
        subst hds
        refine ⟨hp1, hp2, by simp [preorderList], ?_, ?_⟩
        · intro o ho
          simp [preorderList] at ho
        · intro d' hd'
          simp [subDIEsList] at hd'
      next d p1 hd0 =>
        split at h
        next e hk => exact absurd h (by simp)
        next ds' p2 hk =>
          rw [Except.ok.injEq, Prod.mk.injEq] at h
          obtain ⟨hds, hp⟩ := h
          subst hp
          subst hds
          obtain ⟨hp1, hp2, hPd⟩ := ihD pos (some d) p1 hd0
          obtain ⟨hoff, hsort, hbnd, hsub⟩ := hPd d rfl
          obtain ⟨hq1, hq2, hq3, hq4, hq5⟩ := ihC _ _ _ hk
          have hsorted : List.Sorted (· < ·) (preorderList (d :: ds')) := by
            simp only [preorderList]
            refine List.pairwise_append.mpr ⟨hsort, hq3, ?_⟩
            intro x hx y hy
            have hx' := hbnd x hx
            have hy' := hq4 y hy
            omega
          refine ⟨by omega, hq2, hsorted, ?_, ?_⟩
          · intro o ho
            simp only [preorderList, List.mem_append] at ho
            rcases ho with ho | ho
            · have := hbnd o ho; omega
            · have := hq4 o ho; omega
          · intro d' hd'
            simp only [subDIEsList, List.mem_append] at hd'
            rcases hd' with hd' | hd'
            · obtain ⟨hb1, hb2, hb3, hb4⟩ := hsub d' hd'
              exact ⟨by omega, by omega, hb3, hb4⟩
            · obtain ⟨hb1, hb2, hb3, hb4⟩ := hq5 d' hd'
              exact ⟨by omega, by omega, hb3, hb4⟩

/-- C3: for every well-formed compilation unit (one `parseUnitBlock`
accepts), the DIE tree is rooted at exactly one top-level entry (the
parser rejects zero or trailing top-level entries), its pre-order DFS
offsets are strictly increasing — hence each offset inside the unit's
byte extent is visited exactly once — the root sits at the first offset
past the header, every offset lies inside the unit's byte extent, every
parent's offset strictly precedes all of its descendants' offsets, and
the tree is acyclic: no DIE occurs among its own descendants. -/
theorem cu_die_tree_invariants (tbl : List (Nat × AbbrevDecl))
    (block : List Nat) (u : CompilationUnit)
    (h : parseUnitBlock tbl block = .ok u) :
    u.root.offset = 11 ∧
    List.Sorted (· < ·) (preorder u.root) ∧
    (preorder u.root).Nodup ∧
    (preorder u.root).head? = some u.root.offset ∧
    (∀ o ∈ preorder u.root, 11 ≤ o ∧ o < block.length) ∧
    (∀ d ∈ subDIEs u.root, ∀ e ∈ subDIEsList d.children,
      d.offset < e.offset) ∧
    (∀ d ∈ subDIEs u.root, d ∉ subDIEsList d.children) := by
  simp only [parseUnitBlock] at h
  split_ifs at h with h11
  split at h
  next e hp => exact absurd h (by simp)
  next p0 hp => exact absurd h (by simp)
  next d pos' hp =>
    split_ifs at h with hlen
    rw [Except.ok.injEq] at h
    subst h
    obtain ⟨hp1, hp2, hPd⟩ :=
      (parse_tree_invariants tbl (leBytesVal ((block.drop 10).take 1)) block
        (block.length + 1)).1 11 (some d) pos' hp
    obtain ⟨hoff, hsort, hbnd, hsub⟩ := hPd d rfl
    refine ⟨hoff, hsort, hsort.nodup, ?_, ?_, ?_, ?_⟩
    · cases d with
      | node o t a k => simp [preorder, DIE.offset]
    · intro o ho
      have := hbnd o ho
      omega
    · intro d' hd' e he
      exact (hsub d' hd').2.2.2 e he
    · intro d' hd' hmem
      have := (hsub d' hd').2.2.2 d' hmem
      omega

/-- Witness for C3 on the concrete well-formed two-DIE unit. -/
theorem cu_die_tree_invariants_witness :
    parseUnitBlock sampleAbbrevs sampleUnitBlock = .ok sampleUnit ∧
    (sampleUnit.root.offset = 11 ∧
    List.Sorted (· < ·) (preorder sampleUnit.root) ∧
    (preorder sampleUnit.root).Nodup ∧
    (preorder sampleUnit.root).head? = some sampleUnit.root.offset ∧
    (∀ o ∈ preorder sampleUnit.root, 11 ≤ o ∧ o < sampleUnitBlock.length) ∧
    (∀ d ∈ subDIEs sampleUnit.root, ∀ e ∈ subDIEsList d.children,
      d.offset < e.offset) ∧
    (∀ d ∈ subDIEs sampleUnit.root, d ∉ subDIEsList d.children)) :=
  ⟨rfl, cu_die_tree_invariants sampleAbbrevs sampleUnitBlock sampleUnit rfl⟩

end Dwarf
